import Mathlib

/-!
Verification of the two custom on-disk key-value store engines of the
`building-an-index` repository: the flat sorted-index store
(`backends/dat_btree.rs`) and the open-addressing hash store
(`backends/dat_hash.rs`).  Files are modelled as lists of natural numbers
(bytes), builders and readers as executable Lean functions translated from
the Rust source; `Option` models `Result`-errors and Rust panics.
-/

namespace Idx

/-- Byte-lexicographic three-way comparison, as Rust's `[u8]::cmp`. -/
def lexCmp : List Nat → List Nat → Ordering
  | [], [] => .eq
  | [], _ :: _ => .lt
  | _ :: _, [] => .gt
  | a :: l, b :: m => if a < b then .lt else if b < a then .gt else lexCmp l m

theorem lexCmp_self (a : List Nat) : lexCmp a a = .eq := by
  induction a with
  | nil => rfl
  | cons x l ih => simp [lexCmp, ih]

theorem lexCmp_eq_iff {a b : List Nat} : lexCmp a b = .eq ↔ a = b := by
  induction a generalizing b with
  | nil => cases b <;> simp [lexCmp]
  | cons x l ih =>
    cases b with
    | nil => simp [lexCmp]
    | cons y m =>
      by_cases h1 : x < y
      · simp [lexCmp, h1]
        omega
      · by_cases h2 : y < x
        · simp [lexCmp, h1, h2]
          omega
        · have hxy : x = y := by omega
          simp [lexCmp, h1, h2, hxy, ih]

theorem lexCmp_gt_iff {a b : List Nat} : lexCmp a b = .gt ↔ lexCmp b a = .lt := by
  induction a generalizing b with
  | nil => cases b <;> simp [lexCmp]
  | cons x l ih =>
    cases b with
    | nil => simp [lexCmp]
    | cons y m =>
      by_cases h1 : x < y
      · have h2 : ¬ y < x := by omega
        simp [lexCmp, h1, h2]
      · by_cases h2 : y < x
        · simp [lexCmp, h1, h2]
        · simp [lexCmp, h1, h2, ih]

theorem lexCmp_lt_trans {a b c : List Nat} (h1 : lexCmp a b = .lt)
    (h2 : lexCmp b c = .lt) : lexCmp a c = .lt := by
  induction a generalizing b c with
  | nil =>
    cases b with
    | nil => simp [lexCmp] at h1
    | cons y m => cases c with
      | nil => simp [lexCmp] at h2
      | cons z k => simp [lexCmp]
  | cons x l ih =>
    cases b with
    | nil => simp [lexCmp] at h1
    | cons y m =>
      cases c with
      | nil => simp [lexCmp] at h2
      | cons z k =>
        simp only [lexCmp] at h1 h2 ⊢
        by_cases hxy : x < y
        · by_cases hyz : y < z
          · have : x < z := by omega
            simp [this]
          · by_cases hzy : z < y
            · simp [hyz, hzy] at h2
            · have hxz : x < z := by omega
              simp [hxz]
        · by_cases hyx : y < x
          · simp [hxy, hyx] at h1
          · have hxyeq : x = y := by omega
            subst hxyeq
            simp only [hxy, if_false, hyx, if_false] at h1
            by_cases hyz : x < z
            · simp [hyz]
            · by_cases hzy : z < x
              · simp [hyz, hzy] at h2
              · simp only [hyz, if_false, hzy, if_false] at h2 ⊢
                exact ih h1 h2

theorem lexCmp_lt_ne {a b : List Nat} (h : lexCmp a b = .lt) : a ≠ b := by
  intro he
  subst he
  simp [lexCmp_self] at h

/-- Little-endian encoding of `n` into `w` bytes (`u32::to_le_bytes`,
`u64::to_le_bytes`; truncates like an `as` cast when `n` does not fit). -/
def le : Nat → Nat → List Nat
  | 0, _ => []
  | w + 1, n => n % 256 :: le w (n / 256)

/-- Little-endian decoding of a byte list (`u32::from_le_bytes` etc.). -/
def deLE : List Nat → Nat
  | [] => 0
  | b :: bs => b + 256 * deLE bs

@[simp] theorem le_length (w n : Nat) : (le w n).length = w := by
  induction w generalizing n with
  | zero => rfl
  | succ w ih => simp [le, ih]

theorem deLE_le (w n : Nat) : deLE (le w n) = n % 256 ^ w := by
  induction w generalizing n with
  | zero => simp [le, deLE, Nat.mod_one]
  | succ w ih =>
    simp only [le, deLE, ih]
    rw [pow_succ', Nat.mod_mul]

theorem deLE_le_of_lt {w n : Nat} (h : n < 256 ^ w) : deLE (le w n) = n := by
  rw [deLE_le, Nat.mod_eq_of_lt h]

/-- Checked slice `data[off .. off+len]`; `none` models the Rust panic
(or `read_exact` error) when the range exceeds the buffer. -/
def sliceBytes (data : List Nat) (off len : Nat) : Option (List Nat) :=
  if off + len ≤ data.length then some ((data.drop off).take len) else none

/-- Reading a `w`-byte little-endian field at `off` (bounds already checked
by the caller in the source). -/
def readLE (data : List Nat) (off w : Nat) : Nat :=
  deLE ((data.drop off).take w)

theorem sliceBytes_spec {data pre mid post : List Nat}
    (h : data = pre ++ mid ++ post) :
    sliceBytes data pre.length mid.length = some mid := by
  subst h
  unfold sliceBytes
  rw [if_pos]
  · rw [List.append_assoc, List.drop_left, List.take_left]
  · simp

theorem sliceBytes_eq_some {data out : List Nat} {off len : Nat}
    (h : sliceBytes data off len = some out) :
    off + len ≤ data.length ∧ out = (data.drop off).take len := by
  unfold sliceBytes at h
  by_cases hle : off + len ≤ data.length
  · rw [if_pos hle] at h
    exact ⟨hle, (Option.some_injective _ h).symm⟩
  · rw [if_neg hle] at h
    cases h

theorem sliceBytes_none_iff {data : List Nat} {off len : Nat} :
    sliceBytes data off len = none ↔ data.length < off + len := by
  unfold sliceBytes
  by_cases hle : off + len ≤ data.length
  · rw [if_pos hle]
    constructor
    · intro h
      cases h
    · intro h
      exact absurd h (by omega)
  · rw [if_neg hle]
    constructor
    · intro _
      omega
    · intro _
      rfl

theorem readLE_spec {data pre post : List Nat} {w n : Nat}
    (h : data = pre ++ le w n ++ post) :
    readLE data pre.length w = n % 256 ^ w := by
  subst h
  unfold readLE
  rw [List.append_assoc, List.drop_left]
  have : (le w n ++ post).take w = le w n := by
    rw [List.take_append_of_le_length (by simp), List.take_of_length_le (by simp)]
  rw [this, deLE_le]

theorem readLE_spec_lt {data pre post : List Nat} {w n : Nat}
    (h : data = pre ++ le w n ++ post) (hn : n < 256 ^ w) :
    readLE data pre.length w = n := by
  rw [readLE_spec h, Nat.mod_eq_of_lt hn]

/-! ## Flat sorted-index store (`dat_btree.rs`) -/

/-- `b"BTREEIDX"`. -/
def BMAGIC : List Nat := [66, 84, 82, 69, 69, 73, 68, 88]

/-- The opened flat store: the mmapped file plus the parsed header fields. -/
structure BTreeDatStore where
  mmap : List Nat
  btree_root_offset : Nat
  blob_heap_offset : Nat
  entry_count : Nat
deriving DecidableEq

/-- `BTreeDatStore::read_header` + `open`: reject files smaller than the
64-byte header or with a wrong magic tag, then parse the three header
fields.  (`open` performs no further validation.) -/
def BTreeDatStore.openStore (data : List Nat) : Option BTreeDatStore :=
  if data.length < 64 then none
  else if data.take 8 ≠ BMAGIC then none
  else some ⟨data, readLE data 8 8, readLE data 16 8, readLE data 24 8⟩

/-- The scan loop of `BTreeDatStore::find_key`.  `some none` is Rust's
`None` (key absent), `some (some (o, l))` is `Some((blob_offset, blob_len))`,
and `none` models a Rust panic (slice out of the mmapped range). -/
def findLoop (data : List Nat) (bend : Nat) (key : List Nat) (off : Nat) :
    Option (Option (Nat × Nat)) :=
  if off < bend then
    if bend < off + 4 then some none
    else
      match sliceBytes data off 4 with
      | none => none
      | some klb =>
        let key_len := deLE klb
        if bend < off + 4 + key_len + 16 then some none
        else
          match sliceBytes data (off + 4) key_len,
                sliceBytes data (off + 4 + key_len) 8,
                sliceBytes data (off + 4 + key_len + 8) 8 with
          | some ek, some bo, some bl =>
            match lexCmp ek key with
            | .eq => some (some (deLE bo, deLE bl))
            | .gt => some none
            | .lt => findLoop data bend key (off + 4 + key_len + 16)
          | _, _, _ => none
  else some none
termination_by bend - off
decreasing_by omega

/-- `BTreeDatStore::find_key`: scan the index region. -/
def BTreeDatStore.find_key (s : BTreeDatStore) (key : List Nat) :
    Option (Option (Nat × Nat)) :=
  findLoop s.mmap s.blob_heap_offset key s.btree_root_offset

/-- `BTreeDatStore::get_blob`: slice the mmap directly (panic if out of
range). -/
def BTreeDatStore.get_blob (s : BTreeDatStore) (off len : Nat) :
    Option (List Nat) :=
  sliceBytes s.mmap off len

/-- `BTreeDatStore::get`. -/
def BTreeDatStore.get (s : BTreeDatStore) (key : List Nat) :
    Option (Option (List Nat)) :=
  match s.find_key key with
  | none => none
  | some none => some none
  | some (some (o, l)) =>
    match s.get_blob o l with
    | none => none
    | some v => some (some v)

/-- The scan loop of `BTreeDatStore::keys`. -/
def keysLoop (data : List Nat) (bend : Nat) (off : Nat) :
    Option (List (List Nat)) :=
  if off < bend then
    if bend < off + 4 then some []
    else
      match sliceBytes data off 4 with
      | none => none
      | some klb =>
        let key_len := deLE klb
        if bend < off + 4 + key_len + 16 then some []
        else
          match sliceBytes data (off + 4) key_len with
          | none => none
          | some ek => (keysLoop data bend (off + 4 + key_len + 16)).map (ek :: ·)
  else some []
termination_by bend - off
decreasing_by omega

/-- `BTreeDatStore::keys`. -/
def BTreeDatStore.keysList (s : BTreeDatStore) : Option (List (List Nat)) :=
  keysLoop s.mmap s.blob_heap_offset s.btree_root_offset

/-- `BTreeDatStore::len`. -/
def BTreeDatStore.lenStore (s : BTreeDatStore) : Nat := s.entry_count

/-! ### Flat builder (`BTreeDatStoreBuilder`): a `BTreeMap<Vec<u8>, Vec<u8>>`
modelled as a strictly-sorted association list. -/

/-- `BTreeMap::insert` on the sorted association list (replaces on equal
key — last write wins). -/
def btreeInsert (k v : List Nat) : List (List Nat × List Nat) →
    List (List Nat × List Nat)
  | [] => [(k, v)]
  | (k', v') :: rest =>
    match lexCmp k k' with
    | .lt => (k, v) :: (k', v') :: rest
    | .eq => (k, v) :: rest
    | .gt => (k', v') :: btreeInsert k v rest

/-- The builder state after `create` + a sequence of `insert` calls. -/
def buildBMap (pairs : List (List Nat × List Nat)) :
    List (List Nat × List Nat) :=
  pairs.foldl (fun m kv => btreeInsert kv.1 kv.2 m) []

/-- Size in bytes of one index entry: `4 + key.len() + 8 + 8`. -/
def bentrySize (kv : List Nat × List Nat) : Nat := 4 + kv.1.length + 16

/-- `btree_size`: total size of the index region. -/
def btreeIndexSize (m : List (List Nat × List Nat)) : Nat :=
  (m.map bentrySize).sum

/-- Assign each entry its blob offset: the running heap cursor starting at
`start`, advanced by the value length. -/
def valOffs (start : Nat) : List (List Nat × List Nat) →
    List (List Nat × Nat × List Nat)
  | [] => []
  | (k, v) :: rest => (k, start, v) :: valOffs (start + v.length) rest

/-- Serialized bytes of one index entry `(key, blob_offset, value)`:
`key_len (u32 le) ++ key ++ blob_offset (u64 le) ++ blob_len (u64 le)`. -/
def bentryBytes (e : List Nat × Nat × List Nat) : List Nat :=
  le 4 e.1.length ++ e.1 ++ le 8 e.2.1 ++ le 8 e.2.2.length

/-- `BTreeDatStoreBuilder::finish`: the full byte content of the sealed
file (header, index entries in sorted order, blob heap, header backfilled). -/
def btreeFinish (pairs : List (List Nat × List Nat)) : List Nat :=
  let m := buildBMap pairs
  let heapOff := 64 + btreeIndexSize m
  BMAGIC ++ le 8 64 ++ le 8 heapOff ++ le 8 m.length ++ List.replicate 32 0
    ++ ((valOffs heapOff m).map bentryBytes).flatten
    ++ (m.map Prod.snd).flatten

/-! ### Association-map lemmas for the builder's `BTreeMap` model -/

/-- First-match association lookup. -/
def alookup : List (List Nat × List Nat) → List Nat → Option (List Nat)
  | [], _ => none
  | (k', v') :: rest, k => if k = k' then some v' else alookup rest k

/-- Strict ascending key order, the `BTreeMap` invariant. -/
def SortedM (m : List (List Nat × List Nat)) : Prop :=
  m.Pairwise (fun a b => lexCmp a.1 b.1 = .lt)

theorem mem_btreeInsert {x : List Nat × List Nat} {k v : List Nat}
    {m : List (List Nat × List Nat)} (h : x ∈ btreeInsert k v m) :
    x = (k, v) ∨ x ∈ m := by
  induction m with
  | nil => simpa [btreeInsert] using h
  | cons kv rest ih =>
    obtain ⟨k', v'⟩ := kv
    unfold btreeInsert at h
    cases hc : lexCmp k k' <;> rw [hc] at h
    · simp only [List.mem_cons] at h ⊢
      tauto
    · simp only [List.mem_cons] at h ⊢
      tauto
    · simp only [List.mem_cons] at h ⊢
      rcases h with h | h
      · exact Or.inr (Or.inl h)
      · rcases ih h with h' | h'
        · exact Or.inl h'
        · exact Or.inr (Or.inr h')

theorem SortedM_btreeInsert {k v : List Nat} {m : List (List Nat × List Nat)}
    (hs : SortedM m) : SortedM (btreeInsert k v m) := by
  induction m with
  | nil => simp [btreeInsert, SortedM]
  | cons kv rest ih =>
    obtain ⟨k', v'⟩ := kv
    rw [SortedM, List.pairwise_cons] at hs
    obtain ⟨hlt, hrest⟩ := hs
    unfold btreeInsert
    cases hc : lexCmp k k'
    · rw [SortedM, List.pairwise_cons]
      constructor
      · intro b hb
        simp only [List.mem_cons] at hb
        rcases hb with hb | hb
        · subst hb
          exact hc
        · exact lexCmp_lt_trans hc (hlt b hb)
      · rw [List.pairwise_cons]
        exact ⟨hlt, hrest⟩
    · rw [SortedM, List.pairwise_cons]
      refine ⟨?_, hrest⟩
      intro b hb
      have hk : k = k' := lexCmp_eq_iff.mp hc
      subst hk
      exact hlt b hb
    · rw [SortedM, List.pairwise_cons]
      constructor
      · intro b hb
        rcases mem_btreeInsert hb with hb' | hb'
        · subst hb'
          exact lexCmp_gt_iff.mp hc
        · exact hlt b hb'
      · exact ih hrest

theorem alookup_btreeInsert {k v k' : List Nat} {m : List (List Nat × List Nat)} :
    alookup (btreeInsert k v m) k' = if k' = k then some v else alookup m k' := by
  induction m with
  | nil => simp [btreeInsert, alookup]
  | cons kv rest ih =>
    obtain ⟨k0, v0⟩ := kv
    unfold btreeInsert
    cases hc : lexCmp k k0
    · simp [alookup]
    · have hk : k = k0 := lexCmp_eq_iff.mp hc
      subst hk
      by_cases h0 : k' = k
      · simp [alookup, h0]
      · simp [alookup, h0]
    · have hne : k0 ≠ k := lexCmp_lt_ne (lexCmp_gt_iff.mp hc)
      by_cases h0 : k' = k0
      · subst h0
        simp [alookup, ih, hne, Ne.symm hne]
      · simp [alookup, h0, ih]

theorem alookup_none_of_all_lt {k : List Nat} {m : List (List Nat × List Nat)}
    (h : ∀ p ∈ m, lexCmp k p.1 = .lt) : alookup m k = none := by
  induction m with
  | nil => rfl
  | cons kv rest ih =>
    have hne : k ≠ kv.1 := lexCmp_lt_ne (h kv (by simp))
    simp only [alookup, if_neg hne]
    exact ih fun p hp => h p (by simp [hp])

theorem length_btreeInsert {k v : List Nat} {m : List (List Nat × List Nat)}
    (hs : SortedM m) :
    (btreeInsert k v m).length =
      if alookup m k = none then m.length + 1 else m.length := by
  induction m with
  | nil => simp [btreeInsert, alookup]
  | cons kv rest ih =>
    obtain ⟨k0, v0⟩ := kv
    rw [SortedM, List.pairwise_cons] at hs
    obtain ⟨hlt, hrest⟩ := hs
    unfold btreeInsert
    cases hc : lexCmp k k0
    · have hne : k ≠ k0 := lexCmp_lt_ne hc
      have hnone : alookup rest k =
          none := alookup_none_of_all_lt fun p hp => lexCmp_lt_trans hc (hlt p hp)
      simp [alookup, hne, hnone]
    · have hk : k = k0 := lexCmp_eq_iff.mp hc
      subst hk
      simp [alookup]
    · have hne : k ≠ k0 := Ne.symm (lexCmp_lt_ne (lexCmp_gt_iff.mp hc))
      simp [alookup, hne, ih hrest]
      by_cases h0 : alookup rest k = none <;> simp [h0]

theorem SortedM_buildBMap (pairs : List (List Nat × List Nat)) :
    SortedM (buildBMap pairs) := by
  suffices h : ∀ m, SortedM m → SortedM (pairs.foldl (fun m kv => btreeInsert kv.1 kv.2 m) m) by
    exact h [] (by simp [SortedM])
  induction pairs with
  | nil => intro m hm; exact hm
  | cons kv rest ih =>
    intro m hm
    exact ih _ (SortedM_btreeInsert hm)

/-- The value of the last insertion for key `k` in the insertion
sequence. -/
def lastVal (pairs : List (List Nat × List Nat)) (k : List Nat) :
    Option (List Nat) :=
  pairs.foldl (fun acc kv => if kv.1 = k then some kv.2 else acc) none

theorem alookup_foldl (pairs : List (List Nat × List Nat))
    (m : List (List Nat × List Nat)) (k : List Nat) :
    alookup (pairs.foldl (fun m kv => btreeInsert kv.1 kv.2 m) m) k =
      pairs.foldl (fun acc kv => if kv.1 = k then some kv.2 else acc)
        (alookup m k) := by
  induction pairs generalizing m with
  | nil => rfl
  | cons kv rest ih =>
    simp only [List.foldl_cons, ih, alookup_btreeInsert]
    by_cases h : k = kv.1
    · simp [h]
    · simp [h, Ne.symm h]

/-- Last-write-wins: looking up `k` in the builder's map yields the value
of the last insertion with key `k`. -/
theorem alookup_buildBMap (pairs : List (List Nat × List Nat)) (k : List Nat) :
    alookup (buildBMap pairs) k = lastVal pairs k := by
  rw [buildBMap, alookup_foldl, lastVal]
  rfl

theorem lastVal_of_not_mem {pairs : List (List Nat × List Nat)} {k : List Nat}
    (h : k ∉ pairs.map Prod.fst) (acc : Option (List Nat)) :
    pairs.foldl (fun acc kv => if kv.1 = k then some kv.2 else acc) acc = acc := by
  induction pairs generalizing acc with
  | nil => rfl
  | cons kv rest ih =>
    simp only [List.map_cons, List.mem_cons] at h
    push_neg at h
    simp only [List.foldl_cons, if_neg (Ne.symm h.1)]
    exact ih h.2 acc

theorem lastVal_of_mem_nodup {pairs : List (List Nat × List Nat)}
    {k v : List Nat} (hnd : (pairs.map Prod.fst).Nodup)
    (hm : (k, v) ∈ pairs) (acc : Option (List Nat)) :
    pairs.foldl (fun acc kv => if kv.1 = k then some kv.2 else acc) acc = some v := by
  induction pairs generalizing acc with
  | nil => cases hm
  | cons kv rest ih =>
    simp only [List.map_cons, List.nodup_cons] at hnd
    rcases List.mem_cons.mp hm with hh | hh
    · subst hh
      simp only [List.foldl_cons, if_pos rfl]
      exact lastVal_of_not_mem hnd.1 _
    · have hne : kv.1 ≠ k := by
        intro he
        exact hnd.1 (he ▸ List.mem_map_of_mem Prod.fst hh)
      simp only [List.foldl_cons, if_neg hne]
      exact ih hnd.2 hh _

theorem alookup_buildBMap_of_mem {pairs : List (List Nat × List Nat)}
    {k v : List Nat} (hnd : (pairs.map Prod.fst).Nodup) (hm : (k, v) ∈ pairs) :
    alookup (buildBMap pairs) k = some v := by
  rw [alookup_buildBMap, lastVal]
  exact lastVal_of_mem_nodup hnd hm none

theorem alookup_buildBMap_of_not_mem {pairs : List (List Nat × List Nat)}
    {k : List Nat} (h : k ∉ pairs.map Prod.fst) :
    alookup (buildBMap pairs) k = none := by
  rw [alookup_buildBMap, lastVal]
  exact lastVal_of_not_mem h none

theorem length_buildBMap_aux (pairs : List (List Nat × List Nat)) :
    ∀ m, SortedM m → (pairs.map Prod.fst).Nodup →
      (∀ kv ∈ pairs, alookup m kv.1 = none) →
      (pairs.foldl (fun m kv => btreeInsert kv.1 kv.2 m) m).length =
        m.length + pairs.length := by
  induction pairs with
  | nil => intro m _ _ _; simp
  | cons kv rest ih =>
    intro m hm hnd hnone
    simp only [List.map_cons, List.nodup_cons] at hnd
    simp only [List.foldl_cons]
    rw [ih _ (SortedM_btreeInsert hm) hnd.2 ?_]
    · rw [length_btreeInsert hm, if_pos (hnone kv (by simp))]
      simp
      omega
    · intro kv' hkv'
      rw [alookup_btreeInsert, if_neg, hnone kv' (by simp [hkv'])]
      intro he
      exact hnd.1 (he ▸ List.mem_map_of_mem Prod.fst hkv')

/-- With pairwise-distinct keys the builder's map has exactly one entry per
insertion. -/
theorem length_buildBMap {pairs : List (List Nat × List Nat)}
    (hnd : (pairs.map Prod.fst).Nodup) :
    (buildBMap pairs).length = pairs.length := by
  have := length_buildBMap_aux pairs [] (by simp [SortedM]) hnd (by intro kv _; rfl)
  simpa [buildBMap] using this

/-! ### Scanning the serialized index -/

theorem pow256_4 : (256 : Nat) ^ 4 = 2 ^ 32 := by norm_num

theorem pow256_8 : (256 : Nat) ^ 8 = 2 ^ 64 := by norm_num

@[simp] theorem bentryBytes_length (e : List Nat × Nat × List Nat) :
    (bentryBytes e).length = 4 + e.1.length + 16 := by
  simp [bentryBytes]
  omega

theorem valOffs_indexBytes_length (m : List (List Nat × List Nat)) (s : Nat) :
    (((valOffs s m).map bentryBytes).flatten).length = btreeIndexSize m := by
  induction m generalizing s with
  | nil => simp [valOffs, btreeIndexSize]
  | cons kv rest ih =>
    obtain ⟨k, v⟩ := kv
    simp only [valOffs, List.map_cons, List.flatten_cons, List.length_append,
      bentryBytes_length, btreeIndexSize, List.map_cons, List.sum_cons, ih]
    simp [btreeIndexSize, bentrySize]

/-- One step of the `find_key` scan over a well-formed entry lying at
offset `pre.length` inside the index region. -/
theorem findLoop_step (key : List Nat) {data pre rest k : List Nat}
    {bo bl bend : Nat}
    (hdata : data = pre ++ (le 4 k.length ++ k ++ le 8 bo ++ le 8 bl) ++ rest)
    (hk : k.length < 2 ^ 32) (hbo : bo < 2 ^ 64) (hbl : bl < 2 ^ 64)
    (hbend : pre.length + (4 + k.length + 16) ≤ bend) :
    findLoop data bend key pre.length =
      match lexCmp k key with
      | .eq => some (some (bo, bl))
      | .gt => some none
      | .lt => findLoop data bend key (pre.length + 4 + k.length + 16) := by
  have h4 : sliceBytes data pre.length 4 = some (le 4 k.length) := by
    have h := sliceBytes_spec
      (show data = pre ++ le 4 k.length ++ (k ++ le 8 bo ++ le 8 bl ++ rest) by
        simp [hdata])
    simpa using h
  have hkl : deLE (le 4 k.length) = k.length :=
    deLE_le_of_lt (by rw [pow256_4]; exact hk)
  have hkslice : sliceBytes data (pre.length + 4) k.length = some k := by
    have h := sliceBytes_spec
      (show data = (pre ++ le 4 k.length) ++ k ++ (le 8 bo ++ le 8 bl ++ rest) by
        simp [hdata])
    simpa using h
  have hboslice : sliceBytes data (pre.length + 4 + k.length) 8 = some (le 8 bo) := by
    have h := sliceBytes_spec
      (show data = (pre ++ le 4 k.length ++ k) ++ le 8 bo ++ (le 8 bl ++ rest) by
        simp [hdata])
    simpa [Nat.add_assoc] using h
  have hblslice : sliceBytes data (pre.length + 4 + k.length + 8) 8 =
      some (le 8 bl) := by
    have h := sliceBytes_spec
      (show data = (pre ++ le 4 k.length ++ k ++ le 8 bo) ++ le 8 bl ++ rest by
        simp [hdata])
    simpa [Nat.add_assoc] using h
  have hbo' : deLE (le 8 bo) = bo := deLE_le_of_lt (by rw [pow256_8]; exact hbo)
  have hbl' : deLE (le 8 bl) = bl := deLE_le_of_lt (by rw [pow256_8]; exact hbl)
  rw [findLoop]
  rw [if_pos (by omega), if_neg (by omega), h4]
  simp only [hkl]
  rw [if_neg (by omega), hkslice, hboslice, hblslice]
  cases hc : lexCmp k key <;> simp [hc, hbo', hbl']

/-- Abstract early-exit scan over the entry list `(key, offset, length)`. -/
def entriesScan (key : List Nat) : List (List Nat × Nat × Nat) →
    Option (Nat × Nat)
  | [] => none
  | (k, bo, bl) :: rest =>
    match lexCmp k key with
    | .eq => some (bo, bl)
    | .gt => none
    | .lt => entriesScan key rest

/-- Projection of a laid-out entry to `(key, blob offset, blob length)`. -/
def entProj (e : List Nat × Nat × List Nat) : List Nat × Nat × Nat :=
  (e.1, e.2.1, e.2.2.length)

/-- `find_key`'s byte-level scan agrees with the abstract scan over the
entry list. -/
theorem findLoop_scan {key : List Nat} (ents : List (List Nat × Nat × List Nat)) :
    ∀ (pre post data : List Nat) (bend : Nat),
    data = pre ++ (ents.map bentryBytes).flatten ++ post →
    (∀ e ∈ ents, e.1.length < 2 ^ 32) →
    (∀ e ∈ ents, e.2.1 < 2 ^ 64) →
    (∀ e ∈ ents, e.2.2.length < 2 ^ 64) →
    bend = pre.length + ((ents.map bentryBytes).flatten).length →
    findLoop data bend key pre.length = some (entriesScan key (ents.map entProj)) := by
  induction ents with
  | nil =>
    intro pre post data bend hdata _ _ _ hbend
    rw [findLoop]
    simp only [List.map_nil, List.flatten_nil, List.length_nil] at hbend
    rw [if_neg (by omega)]
    rfl
  | cons e ents ih =>
    intro pre post data bend hdata hk hbo hbl hbend
    obtain ⟨k, bo, v⟩ := e
    have hlenflat : (List.map bentryBytes ((k, bo, v) :: ents)).flatten.length =
        (4 + k.length + 16) + (List.map bentryBytes ents).flatten.length := by
      simp only [List.map_cons, List.flatten_cons, List.length_append,
        bentryBytes_length]
    have hplen : (pre ++ bentryBytes (k, bo, v)).length =
        pre.length + (4 + k.length + 16) := by
      simp
    have hd2 : data = pre ++ (le 4 k.length ++ k ++ le 8 bo ++ le 8 v.length) ++
        ((ents.map bentryBytes).flatten ++ post) := by
      rw [hdata]
      simp [bentryBytes]
    have hbe : pre.length + (4 + k.length + 16) ≤ bend := by omega
    have hstep := findLoop_step key hd2
      (hk (k, bo, v) (List.mem_cons_self _ _))
      (hbo (k, bo, v) (List.mem_cons_self _ _))
      (hbl (k, bo, v) (List.mem_cons_self _ _))
      hbe
    rw [hstep]
    have hrec : findLoop data bend key (pre.length + 4 + k.length + 16) =
        some (entriesScan key (ents.map entProj)) := by
      have := ih (pre ++ bentryBytes (k, bo, v)) post data bend
        (by rw [hdata]; simp) (fun e he => hk e (by simp [he]))
        (fun e he => hbo e (by simp [he])) (fun e he => hbl e (by simp [he]))
        (by rw [hplen]; omega)
      rw [hplen] at this
      have harith : pre.length + (4 + k.length + 16) =
          pre.length + 4 + k.length + 16 := by omega
      rwa [harith] at this
    simp only [List.map_cons, entriesScan, entProj]
    cases lexCmp k key
    · exact hrec
    · rfl
    · rfl

theorem mem_valOffs_fst {m : List (List Nat × List Nat)} {s : Nat}
    {e : List Nat × Nat × List Nat} (h : e ∈ valOffs s m) :
    e.1 ∈ m.map Prod.fst := by
  induction m generalizing s with
  | nil => cases h
  | cons kv rest ih =>
    obtain ⟨k, v⟩ := kv
    simp only [valOffs, List.mem_cons] at h
    rcases h with h | h
    · subst h
      simp
    · simpa using Or.inr (List.mem_map.mp (ih h))

theorem entriesScan_found {m : List (List Nat × List Nat)} {s : Nat}
    {k v : List Nat} {bo : Nat} (hs : SortedM m) (hm : (k, bo, v) ∈ valOffs s m) :
    entriesScan k ((valOffs s m).map entProj) = some (bo, v.length) := by
  induction m generalizing s with
  | nil => cases hm
  | cons kv rest ih =>
    obtain ⟨k0, v0⟩ := kv
    rw [SortedM, List.pairwise_cons] at hs
    obtain ⟨hlt, hrest⟩ := hs
    simp only [valOffs, List.mem_cons] at hm
    rcases hm with hm | hm
    · rw [Prod.mk.injEq] at hm
      obtain ⟨h1, h23⟩ := hm
      rw [Prod.mk.injEq] at h23
      obtain ⟨h2, h3⟩ := h23
      subst h1 h3 h2
      simp [valOffs, entriesScan, entProj, lexCmp_self]
    · have hkm : k ∈ rest.map Prod.fst := mem_valOffs_fst hm
      obtain ⟨p, hp, hpk⟩ := List.mem_map.mp hkm
      have hk0k : lexCmp k0 k = .lt := hpk ▸ hlt p hp
      simp only [valOffs, List.map_cons, entriesScan, entProj, hk0k]
      exact ih hrest hm

theorem entriesScan_none {m : List (List Nat × List Nat)} {s : Nat}
    {k : List Nat} (hs : SortedM m) (hnone : alookup m k = none) :
    entriesScan k ((valOffs s m).map entProj) = none := by
  induction m generalizing s with
  | nil => rfl
  | cons kv rest ih =>
    obtain ⟨k0, v0⟩ := kv
    rw [SortedM, List.pairwise_cons] at hs
    simp only [alookup] at hnone
    by_cases he : k = k0
    · simp [he] at hnone
    · rw [if_neg he] at hnone
      simp only [valOffs, List.map_cons, entriesScan, entProj]
      cases hc : lexCmp k0 k
      · exact ih hs.2 hnone
      · exact absurd (lexCmp_eq_iff.mp hc).symm he
      · rfl

/-- The blob heap contains each laid-out value at its assigned offset. -/
theorem heap_slice {m : List (List Nat × List Nat)} {s : Nat}
    {k v : List Nat} {bo : Nat} (hm : (k, bo, v) ∈ valOffs s m) :
    ∃ heapPre heapPost, (m.map Prod.snd).flatten = heapPre ++ v ++ heapPost ∧
      heapPre.length = bo - s ∧ s ≤ bo := by
  induction m generalizing s with
  | nil => cases hm
  | cons kv rest ih =>
    obtain ⟨k0, v0⟩ := kv
    simp only [valOffs, List.mem_cons] at hm
    rcases hm with hm | hm
    · injection hm with e1 e23
      injection e23 with e2 e3
      subst e1 e2 e3
      exact ⟨[], (rest.map Prod.snd).flatten, by simp, by simp, le_refl _⟩
    · obtain ⟨hp, hq, hflat, hlen, hle⟩ := ih hm
      refine ⟨v0 ++ hp, hq, ?_, ?_, by omega⟩
      · simp [hflat]
      · simp [hlen]
        omega

/-! ### Opening and querying the built flat file -/

theorem alookup_mem {m : List (List Nat × List Nat)} {k v : List Nat}
    (h : alookup m k = some v) : (k, v) ∈ m := by
  induction m with
  | nil => cases h
  | cons kv rest ih =>
    obtain ⟨k0, v0⟩ := kv
    by_cases he : k = k0
    · subst he
      simp only [alookup, if_pos rfl] at h
      injection h with h
      subst h
      simp
    · simp only [alookup, if_neg he] at h
      exact List.mem_cons_of_mem _ (ih h)

theorem mem_foldl_btreeInsert {x : List Nat × List Nat}
    (pairs : List (List Nat × List Nat)) :
    ∀ m, x ∈ pairs.foldl (fun m kv => btreeInsert kv.1 kv.2 m) m →
      x ∈ m ∨ x ∈ pairs := by
  induction pairs with
  | nil => intro m hm; exact Or.inl hm
  | cons kv rest ih =>
    intro m hm
    rw [List.foldl_cons] at hm
    rcases ih (btreeInsert kv.1 kv.2 m) hm with h' | h'
    · rcases mem_btreeInsert h' with h'' | h''
      · subst h''
        simp
      · exact Or.inl h''
    · simp [h']

theorem mem_buildBMap {pairs : List (List Nat × List Nat)}
    {x : List Nat × List Nat} (h : x ∈ buildBMap pairs) : x ∈ pairs := by
  rcases mem_foldl_btreeInsert pairs [] h with h' | h'
  · cases h'
  · exact h'

theorem mem_buildBMap_fst {pairs : List (List Nat × List Nat)}
    {x : List Nat × List Nat} (h : x ∈ buildBMap pairs) :
    x.1 ∈ pairs.map Prod.fst :=
  List.mem_map_of_mem Prod.fst (mem_buildBMap h)

theorem mem_buildBMap_snd {pairs : List (List Nat × List Nat)}
    {x : List Nat × List Nat} (h : x ∈ buildBMap pairs) :
    x.2 ∈ pairs.map Prod.snd :=
  List.mem_map_of_mem Prod.snd (mem_buildBMap h)

theorem mem_valOffs {m : List (List Nat × List Nat)} {s : Nat}
    {e : List Nat × Nat × List Nat} (h : e ∈ valOffs s m) :
    (e.1, e.2.2) ∈ m := by
  induction m generalizing s with
  | nil => cases h
  | cons kv rest ih =>
    obtain ⟨k, v⟩ := kv
    simp only [valOffs, List.mem_cons] at h
    rcases h with h | h
    · subst h
      simp
    · exact List.mem_cons_of_mem _ (ih h)

theorem exists_valOffs_of_mem {m : List (List Nat × List Nat)} {k v : List Nat}
    (h : (k, v) ∈ m) (s : Nat) : ∃ bo, (k, bo, v) ∈ valOffs s m := by
  induction m generalizing s with
  | nil => cases h
  | cons kv rest ih =>
    obtain ⟨k0, v0⟩ := kv
    rcases List.mem_cons.mp h with h' | h'
    · injection h' with h1 h2
      subst h1 h2
      exact ⟨s, by simp [valOffs]⟩
    · obtain ⟨bo, hbo⟩ := ih h' (s + v0.length)
      exact ⟨bo, by simp [valOffs, hbo]⟩

theorem length_le_flatten_of_mem {v : List Nat} {L : List (List Nat)}
    (h : v ∈ L) : v.length ≤ L.flatten.length := by
  induction L with
  | nil => cases h
  | cons w rest ih =>
    rcases List.mem_cons.mp h with h' | h'
    · subst h'
      simp
    · have hih := ih h'
      simp only [List.flatten_cons, List.length_append]
      omega

theorem length_le_indexSize (m : List (List Nat × List Nat)) :
    m.length ≤ btreeIndexSize m := by
  induction m with
  | nil => simp [btreeIndexSize]
  | cons kv rest ih =>
    simp only [btreeIndexSize, List.map_cons, List.sum_cons, bentrySize,
      List.length_cons]
    simp only [btreeIndexSize] at ih
    omega

/-- The store value produced by opening a file sealed by the flat builder. -/
def builtBStore (pairs : List (List Nat × List Nat)) : BTreeDatStore :=
  ⟨btreeFinish pairs, 64, 64 + btreeIndexSize (buildBMap pairs),
    (buildBMap pairs).length⟩

theorem btreeFinish_decomp (pairs : List (List Nat × List Nat)) :
    btreeFinish pairs =
      BMAGIC ++ le 8 64 ++ le 8 (64 + btreeIndexSize (buildBMap pairs)) ++
        le 8 (buildBMap pairs).length ++ List.replicate 32 0 ++
        ((valOffs (64 + btreeIndexSize (buildBMap pairs))
          (buildBMap pairs)).map bentryBytes).flatten ++
        ((buildBMap pairs).map Prod.snd).flatten := rfl

theorem btreeFinish_length (pairs : List (List Nat × List Nat)) :
    (btreeFinish pairs).length = 64 + btreeIndexSize (buildBMap pairs) +
      (((buildBMap pairs).map Prod.snd).flatten).length := by
  rw [btreeFinish_decomp]
  simp only [List.length_append, le_length, List.length_replicate,
    valOffs_indexBytes_length]
  have hB : BMAGIC.length = 8 := rfl
  omega

/-- `open` succeeds on the output of the flat builder's `finish` and parses
back exactly the offsets and entry count that `finish` wrote. -/
theorem openStore_btreeFinish (pairs : List (List Nat × List Nat))
    (hlen : (btreeFinish pairs).length < 2 ^ 64) :
    BTreeDatStore.openStore (btreeFinish pairs) = some (builtBStore pairs) := by
  have hfl := btreeFinish_length pairs
  have hheap : 64 + btreeIndexSize (buildBMap pairs) < 2 ^ 64 := by omega
  have hcnt : (buildBMap pairs).length < 2 ^ 64 := by
    have := length_le_indexSize (buildBMap pairs)
    omega
  unfold BTreeDatStore.openStore
  rw [if_neg (by omega)]
  rw [if_neg ?_]
  · have h8 : readLE (btreeFinish pairs) 8 8 = 64 := by
      have h := readLE_spec_lt
        (show btreeFinish pairs = BMAGIC ++ le 8 64 ++
          (le 8 (64 + btreeIndexSize (buildBMap pairs)) ++
           le 8 (buildBMap pairs).length ++ List.replicate 32 0 ++
           ((valOffs (64 + btreeIndexSize (buildBMap pairs))
             (buildBMap pairs)).map bentryBytes).flatten ++
           ((buildBMap pairs).map Prod.snd).flatten) from by
          rw [btreeFinish_decomp]
          simp)
        (by rw [pow256_8]; omega)
      simpa [BMAGIC] using h
    have h16 : readLE (btreeFinish pairs) 16 8 =
        64 + btreeIndexSize (buildBMap pairs) := by
      have h := readLE_spec_lt
        (show btreeFinish pairs = (BMAGIC ++ le 8 64) ++
          le 8 (64 + btreeIndexSize (buildBMap pairs)) ++
          (le 8 (buildBMap pairs).length ++ List.replicate 32 0 ++
           ((valOffs (64 + btreeIndexSize (buildBMap pairs))
             (buildBMap pairs)).map bentryBytes).flatten ++
           ((buildBMap pairs).map Prod.snd).flatten) from by
          rw [btreeFinish_decomp]
          simp)
        (by rw [pow256_8]; omega)
      simpa [BMAGIC] using h
    have h24 : readLE (btreeFinish pairs) 24 8 = (buildBMap pairs).length := by
      have h := readLE_spec_lt
        (show btreeFinish pairs = (BMAGIC ++ le 8 64 ++
          le 8 (64 + btreeIndexSize (buildBMap pairs))) ++
          le 8 (buildBMap pairs).length ++
          (List.replicate 32 0 ++
           ((valOffs (64 + btreeIndexSize (buildBMap pairs))
             (buildBMap pairs)).map bentryBytes).flatten ++
           ((buildBMap pairs).map Prod.snd).flatten) from by
          rw [btreeFinish_decomp]
          simp)
        (by rw [pow256_8]; omega)
      simpa [BMAGIC] using h
    rw [h8, h16, h24]
    rfl
  · intro hne
    apply hne
    rw [btreeFinish_decomp]
    rw [List.append_assoc, List.append_assoc, List.append_assoc,
      List.append_assoc, List.append_assoc]
    exact List.take_left' rfl

/-- The 64-byte header written by the flat builder. -/
def bheader (pairs : List (List Nat × List Nat)) : List Nat :=
  BMAGIC ++ le 8 64 ++ le 8 (64 + btreeIndexSize (buildBMap pairs)) ++
    le 8 (buildBMap pairs).length ++ List.replicate 32 0

theorem bheader_length (pairs : List (List Nat × List Nat)) :
    (bheader pairs).length = 64 := by
  simp [bheader, BMAGIC]

theorem btreeFinish_decomp' (pairs : List (List Nat × List Nat)) :
    btreeFinish pairs = bheader pairs ++
      ((valOffs (64 + btreeIndexSize (buildBMap pairs))
        (buildBMap pairs)).map bentryBytes).flatten ++
      ((buildBMap pairs).map Prod.snd).flatten := by
  rw [btreeFinish_decomp, bheader]

/-- `find_key` on a store opened from the flat builder's output computes the
abstract sorted scan over the laid-out entries. -/
theorem find_key_builtBStore (pairs : List (List Nat × List Nat))
    (hlen : (btreeFinish pairs).length < 2 ^ 64)
    (hklen : ∀ kv ∈ pairs, kv.1.length < 2 ^ 32) (key : List Nat) :
    (builtBStore pairs).find_key key =
      some (entriesScan key ((valOffs (64 + btreeIndexSize (buildBMap pairs))
        (buildBMap pairs)).map entProj)) := by
  have hfl := btreeFinish_length pairs
  have hscan := @findLoop_scan key
    (valOffs (64 + btreeIndexSize (buildBMap pairs)) (buildBMap pairs))
    (bheader pairs) (((buildBMap pairs).map Prod.snd).flatten)
    (btreeFinish pairs) (64 + btreeIndexSize (buildBMap pairs))
    (btreeFinish_decomp' pairs)
    ?_ ?_ ?_ ?_
  · rw [BTreeDatStore.find_key]
    show findLoop (btreeFinish pairs) (64 + btreeIndexSize (buildBMap pairs))
      key 64 = _
    rw [← bheader_length pairs]
    exact hscan
  · intro e he
    obtain ⟨k', bo', v'⟩ := e
    exact hklen (k', v') (mem_buildBMap (mem_valOffs he))
  · intro e he
    obtain ⟨k', bo', v'⟩ := e
    obtain ⟨hp, hq, hflat, hplen, hle⟩ := heap_slice he
    have hhl : ((buildBMap pairs).map Prod.snd).flatten.length =
        hp.length + v'.length + hq.length := by
      rw [hflat]
      simp only [List.length_append]
    simp only []
    omega
  · intro e he
    obtain ⟨k', bo', v'⟩ := e
    have hv : v' ∈ (buildBMap pairs).map Prod.snd :=
      List.mem_map_of_mem Prod.snd (mem_valOffs he)
    have := length_le_flatten_of_mem hv
    simp only []
    omega
  · rw [bheader_length, valOffs_indexBytes_length]

/-- Reading the blob assigned to a laid-out entry returns its value. -/
theorem get_blob_builtBStore {pairs : List (List Nat × List Nat)}
    {k v : List Nat} {bo : Nat}
    (hval : (k, bo, v) ∈ valOffs (64 + btreeIndexSize (buildBMap pairs))
      (buildBMap pairs)) :
    (builtBStore pairs).get_blob bo v.length = some v := by
  obtain ⟨hp, hq, hflat, hplen, hle⟩ := heap_slice hval
  have hdecomp : btreeFinish pairs =
      (bheader pairs ++
        ((valOffs (64 + btreeIndexSize (buildBMap pairs))
          (buildBMap pairs)).map bentryBytes).flatten ++ hp) ++ v ++ hq := by
    rw [btreeFinish_decomp', hflat]
    simp
  have hspec := sliceBytes_spec hdecomp
  have hprelen : (bheader pairs ++
      ((valOffs (64 + btreeIndexSize (buildBMap pairs))
        (buildBMap pairs)).map bentryBytes).flatten ++ hp).length = bo := by
    simp only [List.length_append, bheader_length, valOffs_indexBytes_length]
    omega
  rw [hprelen] at hspec
  exact hspec

/-- `get` returns the stored value for every key present in the builder's
map. -/
theorem get_builtBStore_some {pairs : List (List Nat × List Nat)}
    {k v : List Nat} (hlen : (btreeFinish pairs).length < 2 ^ 64)
    (hklen : ∀ kv ∈ pairs, kv.1.length < 2 ^ 32)
    (hm : alookup (buildBMap pairs) k = some v) :
    (builtBStore pairs).get k = some (some v) := by
  obtain ⟨bo, hbo⟩ := exists_valOffs_of_mem (alookup_mem hm)
    (64 + btreeIndexSize (buildBMap pairs))
  have hfind := find_key_builtBStore pairs hlen hklen k
  rw [entriesScan_found (SortedM_buildBMap pairs) hbo] at hfind
  rw [BTreeDatStore.get, hfind]
  simp [get_blob_builtBStore hbo]

/-- `get` reports absence for every key not in the builder's map. -/
theorem get_builtBStore_none {pairs : List (List Nat × List Nat)}
    {k : List Nat} (hlen : (btreeFinish pairs).length < 2 ^ 64)
    (hklen : ∀ kv ∈ pairs, kv.1.length < 2 ^ 32)
    (hnone : alookup (buildBMap pairs) k = none) :
    (builtBStore pairs).get k = some none := by
  have hfind := find_key_builtBStore pairs hlen hklen k
  rw [entriesScan_none (SortedM_buildBMap pairs) hnone] at hfind
  rw [BTreeDatStore.get, hfind]

/-! ### The `keys` scan -/

theorem keysLoop_step (k : List Nat) {data pre rest : List Nat}
    {bo bl bend : Nat}
    (hdata : data = pre ++ (le 4 k.length ++ k ++ le 8 bo ++ le 8 bl) ++ rest)
    (hk : k.length < 2 ^ 32)
    (hbend : pre.length + (4 + k.length + 16) ≤ bend) :
    keysLoop data bend pre.length =
      (keysLoop data bend (pre.length + 4 + k.length + 16)).map (k :: ·) := by
  have h4 : sliceBytes data pre.length 4 = some (le 4 k.length) := by
    have h := sliceBytes_spec
      (show data = pre ++ le 4 k.length ++ (k ++ le 8 bo ++ le 8 bl ++ rest) by
        simp [hdata])
    simpa using h
  have hkl : deLE (le 4 k.length) = k.length :=
    deLE_le_of_lt (by rw [pow256_4]; exact hk)
  have hkslice : sliceBytes data (pre.length + 4) k.length = some k := by
    have h := sliceBytes_spec
      (show data = (pre ++ le 4 k.length) ++ k ++ (le 8 bo ++ le 8 bl ++ rest) by
        simp [hdata])
    simpa using h
  rw [keysLoop]
  rw [if_pos (by omega), if_neg (by omega), h4]
  simp only [hkl]
  rw [if_neg (by omega), hkslice]

theorem keysLoop_scan (ents : List (List Nat × Nat × List Nat)) :
    ∀ (pre post data : List Nat) (bend : Nat),
    data = pre ++ (ents.map bentryBytes).flatten ++ post →
    (∀ e ∈ ents, e.1.length < 2 ^ 32) →
    bend = pre.length + ((ents.map bentryBytes).flatten).length →
    keysLoop data bend pre.length = some (ents.map (fun e => e.1)) := by
  induction ents with
  | nil =>
    intro pre post data bend hdata _ hbend
    rw [keysLoop]
    simp only [List.map_nil, List.flatten_nil, List.length_nil] at hbend
    rw [if_neg (by omega)]
    rfl
  | cons e ents ih =>
    intro pre post data bend hdata hk hbend
    obtain ⟨k, bo, v⟩ := e
    have hlenflat : (List.map bentryBytes ((k, bo, v) :: ents)).flatten.length =
        (4 + k.length + 16) + (List.map bentryBytes ents).flatten.length := by
      simp only [List.map_cons, List.flatten_cons, List.length_append,
        bentryBytes_length]
    have hplen : (pre ++ bentryBytes (k, bo, v)).length =
        pre.length + (4 + k.length + 16) := by
      simp
    have hd2 : data = pre ++ (le 4 k.length ++ k ++ le 8 bo ++ le 8 v.length) ++
        ((ents.map bentryBytes).flatten ++ post) := by
      rw [hdata]
      simp [bentryBytes]
    have hbe : pre.length + (4 + k.length + 16) ≤ bend := by omega
    have hstep := keysLoop_step k hd2
      (hk (k, bo, v) (List.mem_cons_self _ _)) hbe
    rw [hstep]
    have hrec : keysLoop data bend (pre.length + 4 + k.length + 16) =
        some (ents.map (fun e => e.1)) := by
      have := ih (pre ++ bentryBytes (k, bo, v)) post data bend
        (by rw [hdata]; simp) (fun e he => hk e (by simp [he]))
        (by rw [hplen]; omega)
      rw [hplen] at this
      have harith : pre.length + (4 + k.length + 16) =
          pre.length + 4 + k.length + 16 := by omega
      rwa [harith] at this
    rw [hrec]
    rfl

theorem valOffs_map_fst (m : List (List Nat × List Nat)) (s : Nat) :
    (valOffs s m).map (fun e => e.1) = m.map Prod.fst := by
  induction m generalizing s with
  | nil => rfl
  | cons kv rest ih =>
    obtain ⟨k, v⟩ := kv
    simp [valOffs, ih]

/-- `keys` on a store opened from the flat builder's output returns the
sorted key list of the builder's map. -/
theorem keysList_builtBStore (pairs : List (List Nat × List Nat))
    (hklen : ∀ kv ∈ pairs, kv.1.length < 2 ^ 32) :
    (builtBStore pairs).keysList = some ((buildBMap pairs).map Prod.fst) := by
  have hscan := keysLoop_scan
    (valOffs (64 + btreeIndexSize (buildBMap pairs)) (buildBMap pairs))
    (bheader pairs) (((buildBMap pairs).map Prod.snd).flatten)
    (btreeFinish pairs) (64 + btreeIndexSize (buildBMap pairs))
    (btreeFinish_decomp' pairs)
    ?_ ?_
  · rw [BTreeDatStore.keysList]
    show keysLoop (btreeFinish pairs) (64 + btreeIndexSize (buildBMap pairs))
      64 = _
    rw [valOffs_map_fst] at hscan
    rw [← bheader_length pairs]
    exact hscan
  · intro e he
    obtain ⟨k', bo', v'⟩ := e
    exact hklen (k', v') (mem_buildBMap (mem_valOffs he))
  · rw [bheader_length, valOffs_indexBytes_length]

theorem pairwise_keys_buildBMap (pairs : List (List Nat × List Nat)) :
    ((buildBMap pairs).map Prod.fst).Pairwise (fun a b => lexCmp a b = .lt) := by
  have := SortedM_buildBMap pairs
  rw [SortedM] at this
  exact List.Pairwise.map Prod.fst (fun a b h => h) this

/-! ## Exact model of the `f64` bucket-count computation
(`((entry_count as f64 / LOAD_FACTOR).ceil() as usize).max(1)` with
`LOAD_FACTOR = 0.7`) -/

/-- Numerator of `0.7_f64`: the literal `0.7` rounds to
`3152519739159347 / 2^52` (the nearest representable double, which is
slightly below `7/10`). -/
def f07sig : Nat := 3152519739159347

/-- The exact rational value of the double `0.7_f64`. -/
def f07 : ℚ := (f07sig : ℚ) / 2 ^ 52

/-- Binade exponent of a positive rational: the unique `e` with
`2^e ≤ q < 2^(e+1)`. -/
def findExp (q : ℚ) : ℤ :=
  let k : ℤ := (Nat.log2 q.num.toNat : ℤ) - (Nat.log2 q.den : ℤ)
  if (2 : ℚ) ^ (k + 1) ≤ q then k + 1 else if (2 : ℚ) ^ k ≤ q then k else k - 1

/-- Round a rational to the nearest integer, ties to even. -/
def rnInt (s : ℚ) : ℤ :=
  if s - ⌊s⌋ < 1 / 2 then ⌊s⌋
  else if (1 : ℚ) / 2 < s - ⌊s⌋ then ⌊s⌋ + 1
  else if ⌊s⌋ % 2 = 0 then ⌊s⌋ else ⌊s⌋ + 1

/-- Round a positive rational to 53 significant bits
(round-to-nearest, ties-to-even): the correctly rounded result an IEEE-754
double operation produces, absent overflow and underflow. -/
def rn53pos (q : ℚ) : ℚ :=
  (rnInt (q * 2 ^ ((52 : ℤ) - findExp q)) : ℚ) * 2 ^ (findExp q - 52)

/-- Rounding a nonnegative rational to double precision (`0` maps to `0`). -/
def rn53 (q : ℚ) : ℚ := if q ≤ 0 then 0 else rn53pos q

/-- The bucket count the hash builder computes:
`((entry_count as f64 / 0.7).ceil() as usize).max(1)`.  `as f64`, the
division and `ceil` are modelled exactly (`ceil` of a double and the
`usize` cast are exact in the relevant range). -/
def codeBucketCount (n : Nat) : Nat :=
  max (⌈rn53 (rn53 (n : ℚ) / f07)⌉.toNat) 1

theorem findExp_spec {q : ℚ} (hq : 0 < q) :
    (2 : ℚ) ^ findExp q ≤ q ∧ q < (2 : ℚ) ^ (findExp q + 1) := by
  have hnum : 0 < q.num := Rat.num_pos.mpr hq
  have ha0 : q.num.toNat ≠ 0 := by omega
  have hd0 : (0 : ℚ) < (q.den : ℚ) := by
    exact_mod_cast q.pos
  have haq : ((q.num.toNat : ℕ) : ℚ) = (q.num : ℚ) := by
    have := Int.toNat_of_nonneg hnum.le
    exact_mod_cast congrArg (fun z : ℤ => (z : ℚ)) this
  have hqd : q * (q.den : ℚ) = ((q.num.toNat : ℕ) : ℚ) := by
    rw [haq]
    exact_mod_cast Rat.mul_den_eq_num q
  have hA1 : (2 : ℕ) ^ Nat.log2 q.num.toNat ≤ q.num.toNat := by
    rw [Nat.log2_eq_log_two]
    exact Nat.pow_log_le_self 2 ha0
  have hA2 : q.num.toNat < 2 ^ (Nat.log2 q.num.toNat + 1) := by
    rw [Nat.log2_eq_log_two]
    exact Nat.lt_pow_succ_log_self one_lt_two _
  have hD1 : (2 : ℕ) ^ Nat.log2 q.den ≤ q.den := by
    rw [Nat.log2_eq_log_two]
    exact Nat.pow_log_le_self 2 q.den_nz
  have hD2 : q.den < 2 ^ (Nat.log2 q.den + 1) := by
    rw [Nat.log2_eq_log_two]
    exact Nat.lt_pow_succ_log_self one_lt_two _
  set A : ℤ := (Nat.log2 q.num.toNat : ℤ) with hA
  set D : ℤ := (Nat.log2 q.den : ℤ) with hD
  have hzA1 : (2 : ℚ) ^ A ≤ ((q.num.toNat : ℕ) : ℚ) := by
    rw [hA, zpow_natCast]
    exact_mod_cast hA1
  have hzA2 : ((q.num.toNat : ℕ) : ℚ) < (2 : ℚ) ^ (A + 1) := by
    have : ((A : ℤ) + 1) = ((Nat.log2 q.num.toNat + 1 : ℕ) : ℤ) := by
      rw [hA]
      push_cast
      ring
    rw [this, zpow_natCast]
    exact_mod_cast hA2
  have hzD1 : (2 : ℚ) ^ D ≤ (q.den : ℚ) := by
    rw [hD, zpow_natCast]
    exact_mod_cast hD1
  have hzD2 : ((q.den : ℕ) : ℚ) < (2 : ℚ) ^ (D + 1) := by
    have : ((D : ℤ) + 1) = ((Nat.log2 q.den + 1 : ℕ) : ℤ) := by
      rw [hD]
      push_cast
      ring
    rw [this, zpow_natCast]
    exact_mod_cast hD2
  have hupper : q < (2 : ℚ) ^ (A - D + 1) := by
    have h5 : q * (2 : ℚ) ^ D < (2 : ℚ) ^ (A + 1) := by
      calc q * (2 : ℚ) ^ D ≤ q * (q.den : ℚ) :=
            mul_le_mul_of_nonneg_left hzD1 hq.le
        _ = ((q.num.toNat : ℕ) : ℚ) := hqd
        _ < (2 : ℚ) ^ (A + 1) := hzA2
    have h6 : q < (2 : ℚ) ^ (A + 1) / (2 : ℚ) ^ D := by
      rw [lt_div_iff₀ (zpow_pos two_pos D)]
      exact h5
    have heq : (2 : ℚ) ^ (A + 1) / (2 : ℚ) ^ D = (2 : ℚ) ^ (A - D + 1) := by
      rw [← zpow_sub₀ (two_ne_zero)]
      congr 1
      ring
    rw [← heq]
    exact h6
  have hlower : (2 : ℚ) ^ (A - D - 1) < q := by
    have h5 : (2 : ℚ) ^ A < q * (2 : ℚ) ^ (D + 1) := by
      calc (2 : ℚ) ^ A ≤ ((q.num.toNat : ℕ) : ℚ) := hzA1
        _ = q * (q.den : ℚ) := hqd.symm
        _ < q * (2 : ℚ) ^ (D + 1) := by
            exact mul_lt_mul_of_pos_left hzD2 hq
    have h6 : (2 : ℚ) ^ A / (2 : ℚ) ^ (D + 1) < q := by
      rw [div_lt_iff₀ (zpow_pos two_pos (D + 1))]
      exact h5
    have heq : (2 : ℚ) ^ (A - D - 1) = (2 : ℚ) ^ A / (2 : ℚ) ^ (D + 1) := by
      rw [← zpow_sub₀ (two_ne_zero)]
      congr 1
      ring
    rw [heq]
    exact h6
  rw [findExp]
  simp only [← hA, ← hD]
  have hni : ¬ ((2 : ℚ) ^ (A - D + 1) ≤ q) := not_le.mpr hupper
  rw [if_neg hni]
  by_cases h2 : (2 : ℚ) ^ (A - D) ≤ q
  · rw [if_pos h2]
    exact ⟨h2, hupper⟩
  · rw [if_neg h2]
    constructor
    · exact hlower.le
    · have : A - D - 1 + 1 = A - D := by ring
      rw [this]
      exact not_le.mp h2

theorem rnInt_ge (s : ℚ) : s - 1 / 2 ≤ (rnInt s : ℚ) := by
  have hf := Int.floor_le s
  have hf2 := Int.lt_floor_add_one s
  rw [rnInt]
  by_cases h1 : s - ⌊s⌋ < 1 / 2
  · rw [if_pos h1]
    linarith
  · rw [if_neg h1]
    by_cases h2 : (1 : ℚ) / 2 < s - ⌊s⌋
    · rw [if_pos h2]
      push_cast
      linarith
    · rw [if_neg h2]
      by_cases h3 : ⌊s⌋ % 2 = 0
      · rw [if_pos h3]
        linarith
      · rw [if_neg h3]
        push_cast
        linarith

theorem rnInt_le (s : ℚ) : (rnInt s : ℚ) ≤ s + 1 / 2 := by
  have hf := Int.floor_le s
  have hf2 := Int.lt_floor_add_one s
  rw [rnInt]
  by_cases h1 : s - ⌊s⌋ < 1 / 2
  · rw [if_pos h1]
    linarith
  · rw [if_neg h1]
    by_cases h2 : (1 : ℚ) / 2 < s - ⌊s⌋
    · rw [if_pos h2]
      push_cast
      linarith
    · rw [if_neg h2]
      have he : s - ⌊s⌋ = 1 / 2 := by linarith
      by_cases h3 : ⌊s⌋ % 2 = 0
      · rw [if_pos h3]
        linarith
      · rw [if_neg h3]
        push_cast
        linarith

theorem rnInt_intCast (z : ℤ) : rnInt (z : ℚ) = z := by
  rw [rnInt, Int.floor_intCast]
  rw [if_pos (by norm_num)]

theorem rn53pos_mul_cancel (q : ℚ) :
    q * 2 ^ ((52 : ℤ) - findExp q) * 2 ^ (findExp q - 52) = q := by
  rw [mul_assoc, ← zpow_add₀ (two_ne_zero : (2 : ℚ) ≠ 0)]
  have h : (52 : ℤ) - findExp q + (findExp q - 52) = 0 := by ring
  rw [h, zpow_zero, mul_one]

theorem rn53pos_ge (q : ℚ) :
    q - (2 : ℚ) ^ (findExp q - 53) ≤ rn53pos q := by
  have hp : (0 : ℚ) < 2 ^ (findExp q - 52) := zpow_pos two_pos _
  have hr := rnInt_ge (q * 2 ^ ((52 : ℤ) - findExp q))
  have hm := mul_le_mul_of_nonneg_right hr hp.le
  rw [rn53pos]
  calc q - (2 : ℚ) ^ (findExp q - 53)
      = (q * 2 ^ ((52 : ℤ) - findExp q) - 1 / 2) * 2 ^ (findExp q - 52) := by
        rw [sub_mul, rn53pos_mul_cancel]
        congr 1
        rw [div_mul_eq_mul_div, one_mul, div_eq_mul_inv, ← zpow_neg_one,
          ← zpow_add₀ (two_ne_zero : (2 : ℚ) ≠ 0)]
        congr 1
        ring
    _ ≤ (rnInt (q * 2 ^ ((52 : ℤ) - findExp q)) : ℚ) * 2 ^ (findExp q - 52) := hm

theorem rn53pos_le (q : ℚ) :
    rn53pos q ≤ q + (2 : ℚ) ^ (findExp q - 53) := by
  have hp : (0 : ℚ) < 2 ^ (findExp q - 52) := zpow_pos two_pos _
  have hr := rnInt_le (q * 2 ^ ((52 : ℤ) - findExp q))
  have hm := mul_le_mul_of_nonneg_right hr hp.le
  rw [rn53pos]
  calc (rnInt (q * 2 ^ ((52 : ℤ) - findExp q)) : ℚ) * 2 ^ (findExp q - 52)
      ≤ (q * 2 ^ ((52 : ℤ) - findExp q) + 1 / 2) * 2 ^ (findExp q - 52) := hm
    _ = q + (2 : ℚ) ^ (findExp q - 53) := by
        rw [add_mul, rn53pos_mul_cancel]
        congr 1
        rw [div_mul_eq_mul_div, one_mul, div_eq_mul_inv, ← zpow_neg_one,
          ← zpow_add₀ (two_ne_zero : (2 : ℚ) ≠ 0)]
        congr 1
        ring

/-- When the scaled significand is an integer, rounding is exact. -/
theorem rn53pos_exact {q : ℚ} {z : ℤ}
    (h : q * 2 ^ ((52 : ℤ) - findExp q) = (z : ℚ)) : rn53pos q = q := by
  rw [rn53pos, h, rnInt_intCast]
  have := rn53pos_mul_cancel q
  rw [h] at this
  exact this

theorem rn53_of_pos {q : ℚ} (hq : 0 < q) : rn53 q = rn53pos q := by
  rw [rn53, if_neg (not_le.mpr hq)]

/-- Relative error bound: rounding never loses more than `2⁻⁵³` relatively. -/
theorem rn53_ge_rel {q : ℚ} (hq : 0 < q) :
    q * (1 - (2 : ℚ) ^ (-53 : ℤ)) ≤ rn53 q := by
  rw [rn53_of_pos hq]
  have h1 := rn53pos_ge q
  have h2 : (2 : ℚ) ^ (findExp q - 53) ≤ q * (2 : ℚ) ^ (-53 : ℤ) := by
    have h3 : (2 : ℚ) ^ findExp q ≤ q := (findExp_spec hq).1
    calc (2 : ℚ) ^ (findExp q - 53)
        = (2 : ℚ) ^ findExp q * (2 : ℚ) ^ (-53 : ℤ) := by
          rw [show findExp q - 53 = findExp q + (-53 : ℤ) by ring,
            zpow_add₀ (two_ne_zero : (2 : ℚ) ≠ 0)]
      _ ≤ q * (2 : ℚ) ^ (-53 : ℤ) :=
          mul_le_mul_of_nonneg_right h3 (zpow_pos two_pos _).le
  calc q * (1 - (2 : ℚ) ^ (-53 : ℤ)) = q - q * (2 : ℚ) ^ (-53 : ℤ) := by ring
    _ ≤ q - (2 : ℚ) ^ (findExp q - 53) := by linarith
    _ ≤ rn53pos q := h1

/-- `n as f64` is exact for `n ≤ 2^53`. -/
theorem rn53_natCast {n : Nat} (h0 : 0 < n) (h53 : n ≤ 2 ^ 53) :
    rn53 (n : ℚ) = n := by
  have hq : (0 : ℚ) < n := by exact_mod_cast h0
  rw [rn53_of_pos hq]
  obtain ⟨hlo, hhi⟩ := findExp_spec hq
  have hc53 : ((2 ^ 53 : ℕ) : ℚ) = (2 : ℚ) ^ (53 : ℤ) := by norm_num
  have he53 : findExp (n : ℚ) ≤ 53 := by
    by_contra hgt
    push_neg at hgt
    have h1 : (2 : ℚ) ^ (54 : ℤ) ≤ (2 : ℚ) ^ findExp (n : ℚ) := by
      rw [zpow_le_zpow_iff_right₀ (by norm_num : (1 : ℚ) < 2)]
      omega
    have h2 : ((2 : ℚ) ^ (54 : ℤ)) = ((2 ^ 54 : ℕ) : ℚ) := by norm_num
    have h3 : ((2 ^ 54 : ℕ) : ℚ) ≤ (n : ℚ) := le_trans (h2 ▸ h1) hlo
    have h4 : (2 : ℕ) ^ 54 ≤ n := by exact_mod_cast h3
    have h5 : (2 : ℕ) ^ 53 < 2 ^ 54 := by norm_num
    omega
  by_cases he : findExp (n : ℚ) ≤ 52
  · have ht : ((52 : ℤ) - findExp (n : ℚ)) =
        (((52 - findExp (n : ℚ)).toNat : ℕ) : ℤ) := by
      omega
    apply rn53pos_exact (z := (n : ℤ) * 2 ^ ((52 - findExp (n : ℚ)).toNat))
    conv_lhs => rw [ht, zpow_natCast]
    push_cast
    ring
  · have he53' : findExp (n : ℚ) = 53 := by omega
    have hn : (2 : ℚ) ^ (53 : ℤ) ≤ (n : ℚ) := he53' ▸ hlo
    have hneq : n = 2 ^ 53 := by
      have h6 : ((2 ^ 53 : ℕ) : ℚ) ≤ (n : ℚ) := hc53 ▸ hn
      have h7 : (2 : ℕ) ^ 53 ≤ n := by exact_mod_cast h6
      omega
    subst hneq
    apply rn53pos_exact (z := 2 ^ 52)
    rw [he53', show ((52 : ℤ) - 53) = (-1 : ℤ) by ring, zpow_neg_one]
    push_cast
    norm_num

theorem f07_pos : (0 : ℚ) < f07 := by
  rw [f07, f07sig]
  positivity

theorem f07_le : f07 ≤ 7 / 10 := by
  rw [f07, f07sig]
  rw [div_le_div_iff (by positivity) (by norm_num)]
  norm_num

/-- The computed bucket count always admits one bucket per insertion:
`n ≤ codeBucketCount n`. -/
theorem bucketCount_ge (n : Nat) : n ≤ codeBucketCount n := by
  rcases Nat.eq_zero_or_pos n with h0 | h0
  · subst h0
    exact Nat.zero_le _
  have hnq : (0 : ℚ) < (n : ℚ) := by exact_mod_cast h0
  have heps : (2 : ℚ) ^ (-53 : ℤ) ≤ 1 / 8 := by norm_num
  have heps0 : (0 : ℚ) < 1 - (2 : ℚ) ^ (-53 : ℤ) := by norm_num
  have hr1 : (n : ℚ) * (1 - (2 : ℚ) ^ (-53 : ℤ)) ≤ rn53 (n : ℚ) :=
    rn53_ge_rel hnq
  have hrpos : (0 : ℚ) < rn53 (n : ℚ) :=
    lt_of_lt_of_le (by positivity) hr1
  have hq2pos : (0 : ℚ) < rn53 (n : ℚ) / f07 := div_pos hrpos f07_pos
  have hq2ge : rn53 (n : ℚ) * (10 / 7) ≤ rn53 (n : ℚ) / f07 := by
    have h1 : rn53 (n : ℚ) / (7 / 10) ≤ rn53 (n : ℚ) / f07 :=
      div_le_div_of_nonneg_left hrpos.le f07_pos f07_le
    calc rn53 (n : ℚ) * (10 / 7) = rn53 (n : ℚ) / (7 / 10) := by ring
      _ ≤ rn53 (n : ℚ) / f07 := h1
  have hr2 : (rn53 (n : ℚ) / f07) * (1 - (2 : ℚ) ^ (-53 : ℤ)) ≤
      rn53 (rn53 (n : ℚ) / f07) := rn53_ge_rel hq2pos
  have hone : (1 : ℚ) ≤ (10 / 7) *
      ((1 - (2 : ℚ) ^ (-53 : ℤ)) * (1 - (2 : ℚ) ^ (-53 : ℤ))) := by
    nlinarith [heps, sq_nonneg ((2 : ℚ) ^ (-53 : ℤ))]
  have hfinal : (n : ℚ) ≤ rn53 (rn53 (n : ℚ) / f07) := by
    have s1 : (n : ℚ) ≤ (n : ℚ) * ((10 / 7) *
        ((1 - (2 : ℚ) ^ (-53 : ℤ)) * (1 - (2 : ℚ) ^ (-53 : ℤ)))) := by
      have hm := mul_le_mul_of_nonneg_left hone hnq.le
      linarith [hm]
    have t1 : ((n : ℚ) * (1 - (2 : ℚ) ^ (-53 : ℤ))) * (10 / 7) ≤
        rn53 (n : ℚ) * (10 / 7) :=
      mul_le_mul_of_nonneg_right hr1 (by norm_num)
    have t2 : ((n : ℚ) * (1 - (2 : ℚ) ^ (-53 : ℤ))) * (10 / 7) ≤
        rn53 (n : ℚ) / f07 := le_trans t1 hq2ge
    have t3 : (((n : ℚ) * (1 - (2 : ℚ) ^ (-53 : ℤ))) * (10 / 7)) *
        (1 - (2 : ℚ) ^ (-53 : ℤ)) ≤
        (rn53 (n : ℚ) / f07) * (1 - (2 : ℚ) ^ (-53 : ℤ)) :=
      mul_le_mul_of_nonneg_right t2 heps0.le
    have t4 := le_trans t3 hr2
    have s2 : (n : ℚ) * ((10 / 7) *
        ((1 - (2 : ℚ) ^ (-53 : ℤ)) * (1 - (2 : ℚ) ^ (-53 : ℤ)))) ≤
        rn53 (rn53 (n : ℚ) / f07) := by
      have heq : (n : ℚ) * ((10 / 7) *
          ((1 - (2 : ℚ) ^ (-53 : ℤ)) * (1 - (2 : ℚ) ^ (-53 : ℤ)))) =
          (((n : ℚ) * (1 - (2 : ℚ) ^ (-53 : ℤ))) * (10 / 7)) *
          (1 - (2 : ℚ) ^ (-53 : ℤ)) := by ring
      rw [heq]
      exact t4
    exact le_trans s1 s2
  have hceil : (n : ℤ) ≤ ⌈rn53 (rn53 (n : ℚ) / f07)⌉ := by
    have h1 : ((n : ℤ) : ℚ) ≤ (⌈rn53 (rn53 (n : ℚ) / f07)⌉ : ℚ) := by
      push_cast
      exact le_trans hfinal (Int.le_ceil _)
    exact_mod_cast h1
  rw [codeBucketCount]
  omega

theorem int_le_toNat_max (z : ℤ) : z ≤ ((max z.toNat 1 : ℕ) : ℤ) := by
  omega

/-- For entry counts below `f07sig` the computed bucket count keeps the
occupied fraction at or below the 0.7 load factor. -/
theorem bucketLoad_le {n : Nat} (h1 : 1 ≤ n) (h2 : n < f07sig) :
    (n : ℚ) ≤ (7 / 10) * (codeBucketCount n : ℚ) := by
  have h52 : ((2 : ℚ) ^ (52 : ℤ)) = 4503599627370496 := by norm_num
  have h51 : ((2 : ℚ) ^ (51 : ℤ)) = 2251799813685248 := by norm_num
  have hn53 : n ≤ 2 ^ 53 := by
    have hf : f07sig < 2 ^ 53 := by norm_num [f07sig]
    omega
  have hrn1 : rn53 (n : ℚ) = n := rn53_natCast h1 hn53
  have hnq : (0 : ℚ) < n := by exact_mod_cast h1
  have hnC : (n : ℚ) < 3152519739159347 := by
    have hx : (n : ℚ) < (f07sig : ℚ) := by exact_mod_cast h2
    rw [show ((f07sig : ℕ) : ℚ) = 3152519739159347 by norm_num [f07sig]] at hx
    exact hx
  have hq70 : (n : ℚ) / f07 = (n : ℚ) * 4503599627370496 / 3152519739159347 := by
    rw [f07, f07sig]
    rw [div_div_eq_mul_div]
    norm_num
  have hqpos : (0 : ℚ) < (n : ℚ) / f07 := div_pos hnq f07_pos
  have hqdiff : (n : ℚ) / f07 - 10 * n / 7 =
      2 * n / (7 * 3152519739159347) := by
    rw [hq70]
    field_simp
    ring
  have hqlt : (n : ℚ) / f07 < (2 : ℚ) ^ (52 : ℤ) := by
    rw [hq70, h52, div_lt_iff₀ (by norm_num)]
    linarith [hnC]
  obtain ⟨hsp1, hsp2⟩ := findExp_spec hqpos
  have he51 : findExp ((n : ℚ) / f07) ≤ 51 := by
    by_contra hgt
    push_neg at hgt
    have hz : (2 : ℚ) ^ (52 : ℤ) ≤ (2 : ℚ) ^ findExp ((n : ℚ) / f07) := by
      rw [zpow_le_zpow_iff_right₀ (by norm_num : (1 : ℚ) < 2)]
      omega
    linarith [le_trans hz hsp1]
  have hrnge : (n : ℚ) / f07 - (2 : ℚ) ^ (findExp ((n : ℚ) / f07) - 53) ≤
      rn53 ((n : ℚ) / f07) := by
    rw [rn53_of_pos hqpos]
    exact rn53pos_ge _
  set m0 : ℤ := ⌊(10 * n / 7 : ℚ)⌋ with hm0
  have hf1 : (m0 : ℚ) ≤ 10 * n / 7 := Int.floor_le _
  have hf2 : (10 * n / 7 : ℚ) < m0 + 1 := Int.lt_floor_add_one _
  set j : ℤ := 10 * (n : ℤ) - 7 * m0 with hj
  have hjq : (10 * n / 7 : ℚ) - m0 = (j : ℚ) / 7 := by
    rw [hj]
    push_cast
    ring
  have hj0 : 0 ≤ j := by
    have ha : (0 : ℚ) ≤ (j : ℚ) / 7 := by linarith
    have hb : (0 : ℚ) ≤ (j : ℚ) := by linarith
    exact_mod_cast hb
  have hd : (0 : ℚ) < 2 * n / (7 * 3152519739159347) := by positivity
  -- the key bound: the ceiling reaches `10 n / 7`
  have hmain : (10 * n / 7 : ℚ) ≤ (⌈rn53 ((n : ℚ) / f07)⌉ : ℚ) := by
    rcases eq_or_lt_of_le hj0 with hjz | hjpos
    · -- exact multiple: `10 n / 7 = m0`
      have hfrac0 : (10 * n / 7 : ℚ) = m0 := by
        have hz : (j : ℚ) = 0 := by exact_mod_cast hjz.symm
        rw [hz] at hjq
        linarith
      have hu : (2 : ℚ) ^ (findExp ((n : ℚ) / f07) - 53) ≤ 1 / 4 := by
        have hz : (2 : ℚ) ^ (findExp ((n : ℚ) / f07) - 53) ≤ (2 : ℚ) ^ (-2 : ℤ) := by
          rw [zpow_le_zpow_iff_right₀ (by norm_num : (1 : ℚ) < 2)]
          omega
        have hv : ((2 : ℚ) ^ (-2 : ℤ)) = 1 / 4 := by norm_num
        linarith
      have hgt : ((m0 - 1 : ℤ) : ℚ) < rn53 ((n : ℚ) / f07) := by
        push_cast
        linarith
      have hce : (m0 - 1 : ℤ) < ⌈rn53 ((n : ℚ) / f07)⌉ := Int.lt_ceil.mpr hgt
      have hm : (m0 : ℚ) ≤ (⌈rn53 ((n : ℚ) / f07)⌉ : ℚ) := by
        exact_mod_cast Int.sub_one_lt_iff.mp hce
      linarith
    · -- fractional part at least `1/7`
      have hfrac : (1 : ℚ) / 7 ≤ (10 * n / 7 : ℚ) - m0 := by
        rw [hjq]
        have hz : (1 : ℚ) ≤ (j : ℚ) := by exact_mod_cast hjpos
        linarith
      have hgtm0 : (m0 : ℚ) < rn53 ((n : ℚ) / f07) := by
        by_cases he50 : findExp ((n : ℚ) / f07) ≤ 50
        · have hu : (2 : ℚ) ^ (findExp ((n : ℚ) / f07) - 53) ≤ 1 / 8 := by
            have hz : (2 : ℚ) ^ (findExp ((n : ℚ) / f07) - 53) ≤
                (2 : ℚ) ^ (-3 : ℤ) := by
              rw [zpow_le_zpow_iff_right₀ (by norm_num : (1 : ℚ) < 2)]
              omega
            have hv : ((2 : ℚ) ^ (-3 : ℤ)) = 1 / 8 := by norm_num
            linarith
          linarith
        · have he51' : findExp ((n : ℚ) / f07) = 51 := by omega
          have hq51 : (2 : ℚ) ^ (51 : ℤ) ≤ (n : ℚ) / f07 := he51' ▸ hsp1
          have h2n : (3152519739159347 : ℚ) ≤ 2 * n := by
            rw [hq70, h51, le_div_iff₀ (by norm_num)] at hq51
            linarith [hq51]
          have heps : (1 : ℚ) / 7 ≤ 2 * n / (7 * 3152519739159347) := by
            rw [div_le_div_iff (by norm_num) (by norm_num)]
            linarith [h2n]
          have hu : (2 : ℚ) ^ (findExp ((n : ℚ) / f07) - 53) ≤ 1 / 4 := by
            have hz : (2 : ℚ) ^ (findExp ((n : ℚ) / f07) - 53) ≤
                (2 : ℚ) ^ (-2 : ℤ) := by
              rw [zpow_le_zpow_iff_right₀ (by norm_num : (1 : ℚ) < 2)]
              omega
            have hv : ((2 : ℚ) ^ (-2 : ℤ)) = 1 / 4 := by norm_num
            linarith
          linarith
      have hce : m0 < ⌈rn53 ((n : ℚ) / f07)⌉ := Int.lt_ceil.mpr hgtm0
      have hge : ((m0 + 1 : ℤ) : ℚ) ≤ (⌈rn53 ((n : ℚ) / f07)⌉ : ℚ) := by
        exact_mod_cast Int.add_one_le_iff.mpr hce
      push_cast at hge
      linarith
  -- conclude through `toNat` and `max`
  have hcz : 0 < ⌈rn53 ((n : ℚ) / f07)⌉ := by
    by_contra hle
    push_neg at hle
    have hzz : ((⌈rn53 ((n : ℚ) / f07)⌉ : ℤ) : ℚ) ≤ 0 := by exact_mod_cast hle
    have hpos : (0 : ℚ) < (10 * n / 7 : ℚ) := by positivity
    linarith
  have hbc : (⌈rn53 ((n : ℚ) / f07)⌉ : ℚ) ≤ (codeBucketCount n : ℚ) := by
    have hz : ⌈rn53 ((n : ℚ) / f07)⌉ ≤ (codeBucketCount n : ℤ) := by
      rw [codeBucketCount, hrn1]
      exact int_le_toNat_max _
    exact_mod_cast hz
  linarith

/-! ## Open-addressing hash store (`dat_hash.rs`) -/

/-- `b"HASHIDX1"`. -/
def HMAGIC : List Nat := [72, 65, 83, 72, 73, 68, 88, 49]

/-- `hash_key`: a 64-bit hash of the key, with 0 remapped to 1 (0 is the
empty-bucket sentinel).  The hash function (`DefaultHasher`) is an opaque
parameter `h`; its 64-bit output is modelled by reducing mod `2^64`. -/
def hashKey (h : List Nat → Nat) (key : List Nat) : Nat :=
  if h key % 2 ^ 64 = 0 then 1 else h key % 2 ^ 64

/-- The opened hash store: buckets parsed into memory, plus the file
contents reachable through the retained file handle. -/
structure HashDatStore where
  buckets : List (Nat × Nat × Nat)
  fileData : List Nat
  bucket_count : Nat
  entry_count : Nat

/-- `read_at`: seek + `read_exact`; errors when the range exceeds the
file. -/
def readAt (data : List Nat) (off len : Nat) : Option (List Nat) :=
  sliceBytes data off len

/-- Parse the bucket array: for each `i`, the three `u64` fields at byte
offset `i * 24`. -/
def parseBuckets : Nat → List Nat → List (Nat × Nat × Nat)
  | 0, _ => []
  | n + 1, bytes =>
    (readLE bytes 0 8, readLE bytes 8 8, readLE bytes 16 8) ::
      parseBuckets n (bytes.drop 24)

/-- `HashDatStore::open`: read and validate the header, check the declared
heap offset against `64 + bucket_count * 24`, read the bucket array into
memory (error if the file is too small), keep the data handle. -/
def HashDatStore.openStore (data : List Nat) : Option HashDatStore :=
  if data.length < 64 then none
  else if data.take 8 ≠ HMAGIC then none
  else
    let bucket_count := readLE data 8 8
    let blob_heap_offset := readLE data 16 8
    let cnt := readLE data 24 8
    if blob_heap_offset ≠ (64 + bucket_count * 24) % 2 ^ 64 then none
    else
      match readAt data 64 ((bucket_count * 24) % 2 ^ 64) with
      | none => none
      | some bbytes =>
        if bucket_count * 24 < 2 ^ 64 then
          some ⟨parseBuckets bucket_count bbytes, data, bucket_count, cnt⟩
        else none

/-- The probe loop of `HashDatStore::find_key`
(`for _ in 0..bucket_count`): stop with `None` on an empty bucket, verify
the stored key through a heap read on a hash match, else probe the next
bucket.  The fuel is the loop's iteration budget. -/
def findAux (s : HashDatStore) (key : List Nat) (kh : Nat) :
    Nat → Nat → Option (Option (Nat × Nat))
  | 0, _ => some none
  | fuel + 1, idx =>
    match s.buckets[idx]? with
    | none => none
    | some (sh, bo, bl) =>
      if sh = 0 then some none
      else if sh = kh then
        match readAt s.fileData bo 4 with
        | none => none
        | some klb =>
          match readAt s.fileData (bo + 4) (deLE klb) with
          | none => none
          | some sk =>
            if sk = key then some (some (bo, bl))
            else findAux s key kh fuel ((idx + 1) % s.bucket_count)
      else findAux s key kh fuel ((idx + 1) % s.bucket_count)

/-- `HashDatStore::find_key` (`none` models the division-by-zero panic on
a zero bucket count). -/
def HashDatStore.find_key (s : HashDatStore) (h : List Nat → Nat)
    (key : List Nat) : Option (Option (Nat × Nat)) :=
  if s.bucket_count = 0 then none
  else findAux s key (hashKey h key) s.bucket_count
    (hashKey h key % s.bucket_count)

/-- `HashDatStore::get_blob`: read the whole self-describing record and
strip the length-prefixed key. -/
def HashDatStore.get_blob (s : HashDatStore) (off len : Nat) :
    Option (List Nat) :=
  match readAt s.fileData off len with
  | none => none
  | some bd =>
    if bd.length < 4 then none
    else
      let key_len := deLE (bd.take 4)
      if 4 + key_len ≤ len then some (bd.drop (4 + key_len)) else none

/-- `HashDatStore::get`. -/
def HashDatStore.get (s : HashDatStore) (h : List Nat → Nat)
    (key : List Nat) : Option (Option (List Nat)) :=
  match s.find_key h key with
  | none => none
  | some none => some none
  | some (some (o, l)) =>
    match s.get_blob o l with
    | none => none
    | some v => some (some v)

/-- The scan of `HashDatStore::keys` (`for i in 0..bucket_count`): skip
empty buckets, read each record and extract the embedded key. -/
def hashKeysAux (s : HashDatStore) : Nat → Nat → Option (List (List Nat))
  | 0, _ => some []
  | rem + 1, i =>
    match s.buckets[i]? with
    | none => none
    | some (sh, bo, bl) =>
      if sh = 0 then hashKeysAux s rem (i + 1)
      else
        match readAt s.fileData bo bl with
        | none => none
        | some bd =>
          if bd.length < 4 then none
          else
            let key_len := deLE (bd.take 4)
            if 4 + key_len ≤ bl then
              (hashKeysAux s rem (i + 1)).map ((bd.drop 4).take key_len :: ·)
            else none

/-- `HashDatStore::keys`. -/
def HashDatStore.keysList (s : HashDatStore) : Option (List (List Nat)) :=
  hashKeysAux s s.bucket_count 0

/-- `HashDatStore::len`. -/
def HashDatStore.lenStore (s : HashDatStore) : Nat := s.entry_count

/-! ### Hash builder (`HashDatStoreBuilder`) -/

/-- The builder's linear-probe loop (`loop { .. }` in `finish`).  The
source loop is unbounded; the fuel argument makes it total, with `none`
meaning the loop would spin without finding an empty bucket. -/
def probeIdx (B : List (Nat × Nat × Nat)) (bc : Nat) :
    Nat → Nat → Option Nat
  | 0, _ => none
  | fuel + 1, idx =>
    match B[idx]? with
    | none => none
    | some b => if b.1 = 0 then some idx else probeIdx B bc fuel ((idx + 1) % bc)

/-- Builder state inside `finish`: the bucket array, the accumulating blob
heap and the heap cursor. -/
structure HBuild where
  buckets : List (Nat × Nat × Nat)
  blob_heap : List Nat
  current_blob_offset : Nat

/-- One iteration of the builder's `for (key, value) in &self.entries`
loop. -/
def insertStep (h : List Nat → Nat) (bc : Nat) (st : HBuild)
    (kv : List Nat × List Nat) : Option HBuild :=
  let key_hash := hashKey h kv.1
  match probeIdx st.buckets bc bc (key_hash % bc) with
  | none => none
  | some idx =>
    let blob_len := 4 + kv.1.length + kv.2.length
    some ⟨st.buckets.set idx (key_hash, st.current_blob_offset, blob_len),
      st.blob_heap ++ le 4 kv.1.length ++ kv.1 ++ kv.2,
      st.current_blob_offset + blob_len⟩

/-- The builder's full placement loop over the insertion sequence. -/
def buildLoop (h : List Nat → Nat) (bc : Nat) :
    List (List Nat × List Nat) → HBuild → Option HBuild
  | [], st => some st
  | kv :: rest, st =>
    match insertStep h bc st kv with
    | none => none
    | some st' => buildLoop h bc rest st'

/-- Serialized bytes of one bucket. -/
def bucketBytes (b : Nat × Nat × Nat) : List Nat :=
  le 8 b.1 ++ le 8 b.2.1 ++ le 8 b.2.2

/-- `HashDatStoreBuilder::finish`: the byte content of the sealed file
(header, bucket array, blob heap, header backfilled); `none` iff the probe
loop fails to terminate. -/
def hashFinish (h : List Nat → Nat) (pairs : List (List Nat × List Nat)) :
    Option (List Nat) :=
  let entry_count := pairs.length
  let bucket_count := codeBucketCount entry_count
  let blob_heap_offset := 64 + bucket_count * 24
  match buildLoop h bucket_count pairs
    ⟨List.replicate bucket_count (0, 0, 0), [], blob_heap_offset⟩ with
  | none => none
  | some st =>
    some (HMAGIC ++ le 8 bucket_count ++ le 8 blob_heap_offset ++
      le 8 entry_count ++ List.replicate 32 0 ++
      (st.buckets.map bucketBytes).flatten ++ st.blob_heap)

/-! ### Probe-loop lemmas -/

theorem hashKey_ne_zero (h : List Nat → Nat) (key : List Nat) :
    hashKey h key ≠ 0 := by
  rw [hashKey]
  split
  · exact one_ne_zero
  · assumption

theorem hashKey_lt (h : List Nat → Nat) (key : List Nat) :
    hashKey h key < 2 ^ 64 := by
  rw [hashKey]
  split
  · norm_num
  · exact Nat.mod_lt _ (by norm_num)

theorem mod_probe_shift (idx t bc : Nat) :
    ((idx + 1) % bc + t) % bc = (idx + (t + 1)) % bc := by
  rw [Nat.mod_add_mod]
  congr 1
  omega

/-- A successful probe returns the first empty bucket along the probe
sequence. -/
theorem probeIdx_spec {B : List (Nat × Nat × Nat)} {bc fuel idx i : Nat}
    (hidx : idx < bc) (hfind : probeIdx B bc fuel idx = some i) :
    ∃ j < fuel, i = (idx + j) % bc ∧
      (∃ b, B[i]? = some b ∧ b.1 = 0) ∧
      ∀ t < j, ∃ b, B[(idx + t) % bc]? = some b ∧ b.1 ≠ 0 := by
  have hbc : 0 < bc := by omega
  induction fuel generalizing idx with
  | zero => cases hfind
  | succ fuel ih =>
    rw [probeIdx] at hfind
    cases hB : B[idx]? with
    | none =>
      simp only [hB] at hfind
      cases hfind
    | some b =>
      simp only [hB] at hfind
      by_cases hb : b.1 = 0
      · rw [if_pos hb] at hfind
        injection hfind with hfind
        subst hfind
        refine ⟨0, by omega, ?_, ⟨b, hB, hb⟩, by omega⟩
        rw [Nat.add_zero, Nat.mod_eq_of_lt hidx]
      · rw [if_neg hb] at hfind
        obtain ⟨j, hj, hi, hempty, hpath⟩ :=
          ih (Nat.mod_lt _ hbc) hfind
        refine ⟨j + 1, by omega, ?_, hempty, ?_⟩
        · rw [hi, mod_probe_shift]
        · intro t ht
          rcases Nat.eq_zero_or_pos t with ht0 | ht0
          · subst ht0
            rw [Nat.add_zero, Nat.mod_eq_of_lt hidx]
            exact ⟨b, hB, hb⟩
          · obtain ⟨t', rfl⟩ : ∃ t', t = t' + 1 := ⟨t - 1, by omega⟩
            have hsh := hpath t' (by omega)
            rwa [mod_probe_shift] at hsh

theorem probeIdx_none_path {B : List (Nat × Nat × Nat)} {bc : Nat}
    (hlen : B.length = bc) :
    ∀ {fuel idx : Nat}, idx < bc → probeIdx B bc fuel idx = none →
    ∀ t < fuel, ∃ b, B[(idx + t) % bc]? = some b ∧ b.1 ≠ 0 := by
  intro fuel
  induction fuel with
  | zero => intro idx _ _ t ht; omega
  | succ fuel ih =>
    intro idx hidx hfind t ht
    have hbc : 0 < bc := by omega
    rw [probeIdx] at hfind
    cases hB : B[idx]? with
    | none =>
      rw [List.getElem?_eq_none_iff] at hB
      omega
    | some b =>
      simp only [hB] at hfind
      by_cases hb : b.1 = 0
      · rw [if_pos hb] at hfind
        cases hfind
      · rw [if_neg hb] at hfind
        rcases Nat.eq_zero_or_pos t with ht0 | ht0
        · subst ht0
          rw [Nat.add_zero, Nat.mod_eq_of_lt hidx]
          exact ⟨b, hB, hb⟩
        · obtain ⟨t', rfl⟩ : ∃ t', t = t' + 1 := ⟨t - 1, by omega⟩
          have hsh := ih (Nat.mod_lt _ hbc) hfind t' (by omega)
          rwa [mod_probe_shift] at hsh

/-- Probing `bc` times from any start visits every bucket, so the probe
succeeds whenever an empty bucket exists. -/
theorem probeIdx_succeeds {B : List (Nat × Nat × Nat)} {bc idx i : Nat}
    (hlen : B.length = bc) (hbc : 0 < bc) (hidx : idx < bc) (hi : i < bc)
    {b : Nat × Nat × Nat} (hB : B[i]? = some b) (hb : b.1 = 0) :
    probeIdx B bc bc idx ≠ none := by
  intro hnone
  have hpath := probeIdx_none_path hlen hidx hnone
  have ht : (idx + (i + bc - idx) % bc) % bc = i := by
    rw [Nat.add_mod_mod]
    have harg : idx + (i + bc - idx) = i + bc := by omega
    rw [harg, Nat.add_mod_right, Nat.mod_eq_of_lt hi]
  have hlt : (i + bc - idx) % bc < bc := Nat.mod_lt _ hbc
  obtain ⟨b', hB', hb'⟩ := hpath ((i + bc - idx) % bc) hlt
  rw [ht, hB] at hB'
  injection hB' with hB'
  subst hB'
  exact hb' hb

/-! ### Record layout of the hash store's blob heap -/

/-- Length of one self-describing heap record:
`4 + key.len() + value.len()`. -/
def recLen (kv : List Nat × List Nat) : Nat := 4 + kv.1.length + kv.2.length

/-- Bytes of one heap record: `key_len (u32 le) ++ key ++ value`. -/
def recBytes (kv : List Nat × List Nat) : List Nat :=
  le 4 kv.1.length ++ kv.1 ++ kv.2

@[simp] theorem recBytes_length (kv : List Nat × List Nat) :
    (recBytes kv).length = recLen kv := by
  simp [recBytes, recLen]
  omega

/-- Entries paired with their record offsets (the running heap cursor). -/
def hValOffs (start : Nat) : List (List Nat × List Nat) →
    List ((List Nat × List Nat) × Nat)
  | [] => []
  | kv :: rest => (kv, start) :: hValOffs (start + recLen kv) rest

theorem hValOffs_append (E : List (List Nat × List Nat))
    (kv : List Nat × List Nat) (s : Nat) :
    hValOffs s (E ++ [kv]) =
      hValOffs s E ++ [(kv, s + ((E.map recBytes).flatten).length)] := by
  induction E generalizing s with
  | nil => simp [hValOffs]
  | cons kv' rest ih =>
    show (kv', s) :: hValOffs (s + recLen kv') (rest ++ [kv]) =
      (kv', s) :: hValOffs (s + recLen kv') rest ++
        [(kv, s + (List.map recBytes (kv' :: rest)).flatten.length)]
    rw [ih]
    simp only [List.map_cons, List.flatten_cons, List.length_append,
      recBytes_length, List.cons_append]
    rw [show s + (recLen kv' + (List.map recBytes rest).flatten.length) =
      s + recLen kv' + (List.map recBytes rest).flatten.length by omega]

theorem mem_hValOffs_fst {E : List (List Nat × List Nat)} {s : Nat}
    {e : (List Nat × List Nat) × Nat} (h : e ∈ hValOffs s E) : e.1 ∈ E := by
  induction E generalizing s with
  | nil => cases h
  | cons kv rest ih =>
    simp only [hValOffs, List.mem_cons] at h
    rcases h with h | h
    · subst h
      simp
    · exact List.mem_cons_of_mem _ (ih h)

/-- Each record sits in the heap at its assigned offset. -/
theorem hHeap_slice {E : List (List Nat × List Nat)} {s : Nat}
    {kv : List Nat × List Nat} {off : Nat} (hm : (kv, off) ∈ hValOffs s E) :
    ∃ hp hq, (E.map recBytes).flatten = hp ++ recBytes kv ++ hq ∧
      hp.length = off - s ∧ s ≤ off := by
  induction E generalizing s with
  | nil => cases hm
  | cons kv' rest ih =>
    simp only [hValOffs, List.mem_cons] at hm
    rcases hm with hm | hm
    · injection hm with h1 h2
      subst h1 h2
      exact ⟨[], (rest.map recBytes).flatten, by simp, by simp, le_refl _⟩
    · obtain ⟨hp, hq, hflat, hplen, hle⟩ := ih hm
      refine ⟨recBytes kv' ++ hp, hq, ?_, ?_, by simp [recLen] at hle ⊢; omega⟩
      · simp [hflat]
      · simp only [List.length_append, hplen, recBytes_length]
        simp [recLen] at hle ⊢
        omega

/-! ### Builder invariant -/

theorem hValOffs_length (E : List (List Nat × List Nat)) (s : Nat) :
    (hValOffs s E).length = E.length := by
  induction E generalizing s with
  | nil => rfl
  | cons kv rest ih => simp [hValOffs, ih]

/-- Valid placement of entry `ekv = (kv, off)` at bucket `i`: the bucket
holds the entry's hash, record offset and length, and the probe path from
the key's home bucket is fully occupied. -/
def PlaceOK (h : List Nat → Nat) (bc : Nat) (B : List (Nat × Nat × Nat))
    (ekv : (List Nat × List Nat) × Nat) (i : Nat) : Prop :=
  i < bc ∧ B[i]? = some (hashKey h ekv.1.1, ekv.2, recLen ekv.1) ∧
  ∃ j < bc, i = (hashKey h ekv.1.1 % bc + j) % bc ∧
    ∀ t < j, ∃ b, B[(hashKey h ekv.1.1 % bc + t) % bc]? = some b ∧ b.1 ≠ 0

/-- Invariant of the builder state after placing the entries `E`. -/
def BInv (h : List Nat → Nat) (bc heapOff : Nat)
    (E : List (List Nat × List Nat)) (st : HBuild) : Prop :=
  st.buckets.length = bc ∧
  st.blob_heap = (E.map recBytes).flatten ∧
  st.current_blob_offset = heapOff + st.blob_heap.length ∧
  ∃ ixs : List Nat, ixs.Nodup ∧
    List.Forall₂ (PlaceOK h bc st.buckets) (hValOffs heapOff E) ixs ∧
    ∀ i b, st.buckets[i]? = some b → b.1 ≠ 0 → i ∈ ixs

theorem BInv_init (h : List Nat → Nat) (bc heapOff : Nat) :
    BInv h bc heapOff [] ⟨List.replicate bc (0, 0, 0), [], heapOff⟩ := by
  refine ⟨by simp, rfl, by simp, [], List.nodup_nil, List.Forall₂.nil, ?_⟩
  intro i b hb hne
  rw [List.getElem?_replicate] at hb
  split at hb
  · injection hb with hb
    subst hb
    exact absurd rfl hne
  · cases hb

theorem forall2_mem_right {h : List Nat → Nat} {bc : Nat}
    {B : List (Nat × Nat × Nat)} {l : List ((List Nat × List Nat) × Nat)}
    {ixs : List Nat} (hf : List.Forall₂ (PlaceOK h bc B) l ixs) {i : Nat}
    (hi : i ∈ ixs) : ∃ e ∈ l, PlaceOK h bc B e i := by
  induction hf with
  | nil => cases hi
  | cons hr hrest ih =>
    rcases List.mem_cons.mp hi with hi' | hi'
    · subst hi'
      exact ⟨_, by simp, hr⟩
    · obtain ⟨e, he, hok⟩ := ih hi'
      exact ⟨e, by simp [he], hok⟩

theorem occupied_set {B : List (Nat × Nat × Nat)} {i idx : Nat}
    {x : Nat × Nat × Nat} (hx : x.1 ≠ 0) (hidx : idx < B.length)
    (hocc : ∃ b, B[i]? = some b ∧ b.1 ≠ 0) :
    ∃ b, (B.set idx x)[i]? = some b ∧ b.1 ≠ 0 := by
  obtain ⟨b, hb, hbne⟩ := hocc
  by_cases he : i = idx
  · subst he
    exact ⟨x, List.getElem?_set_eq_of_lt x hidx, hx⟩
  · exact ⟨b, by rw [List.getElem?_set_ne (Ne.symm he)]; exact hb, hbne⟩

theorem placeOK_set {h : List Nat → Nat} {bc : Nat}
    {B : List (Nat × Nat × Nat)} {e : (List Nat × List Nat) × Nat}
    {i idx : Nat} {x : Nat × Nat × Nat} (hx : x.1 ≠ 0)
    (hidx : idx < B.length) (hne : i ≠ idx) (hok : PlaceOK h bc B e i) :
    PlaceOK h bc (B.set idx x) e i := by
  obtain ⟨hlt, hbucket, j, hj, hpos, hpath⟩ := hok
  refine ⟨hlt, ?_, j, hj, hpos, ?_⟩
  · rw [List.getElem?_set_ne (Ne.symm hne)]
    exact hbucket
  · intro t ht
    exact occupied_set hx hidx (hpath t ht)

theorem forall2_place_set {h : List Nat → Nat} {bc : Nat}
    {B : List (Nat × Nat × Nat)} {l : List ((List Nat × List Nat) × Nat)}
    {ixs : List Nat} {idx : Nat} {x : Nat × Nat × Nat}
    (hf : List.Forall₂ (PlaceOK h bc B) l ixs) (hx : x.1 ≠ 0)
    (hidx : idx < B.length) (hnm : idx ∉ ixs) :
    List.Forall₂ (PlaceOK h bc (B.set idx x)) l ixs := by
  induction hf with
  | nil => exact List.Forall₂.nil
  | cons hr hrest ih =>
    rw [List.mem_cons] at hnm
    push_neg at hnm
    exact List.Forall₂.cons (placeOK_set hx hidx (Ne.symm hnm.1) hr) (ih hnm.2)

/-- One placement step preserves the invariant and always succeeds while
there is room. -/
theorem insertStep_inv {h : List Nat → Nat} {bc heapOff : Nat}
    {E : List (List Nat × List Nat)} {st : HBuild}
    (kv : List Nat × List Nat) (hbc : 0 < bc)
    (hinv : BInv h bc heapOff E st) (hroom : E.length < bc) :
    ∃ st', insertStep h bc st kv = some st' ∧
      BInv h bc heapOff (E ++ [kv]) st' := by
  obtain ⟨hlen, hheap, hcur, ixs, hnodup, hf, hconv⟩ := hinv
  have hixlen : ixs.length = E.length := by
    rw [← hf.length_eq, hValOffs_length]
  -- an empty bucket exists
  have hex : ∃ i : Nat, ∃ b : Nat × Nat × Nat, st.buckets[i]? = some b ∧ b.1 = 0 := by
    by_contra hno
    push_neg at hno
    have hsub : List.range bc ⊆ ixs := by
      intro i hi
      rw [List.mem_range] at hi
      have hib : i < st.buckets.length := by omega
      cases hsome : st.buckets[i]? with
      | none =>
        rw [List.getElem?_eq_none_iff] at hsome
        omega
      | some b => exact hconv i b hsome (hno i b hsome)
    have hle : bc ≤ ixs.length := by
      have := ((List.nodup_range bc).subperm hsub).length_le
      simpa using this
    omega
  obtain ⟨i0, b0, hb0, hb0e⟩ := hex
  have hi0 : i0 < bc := by
    have := (List.getElem?_eq_some_iff.mp hb0).1
    omega
  have hstart : hashKey h kv.1 % bc < bc := Nat.mod_lt _ hbc
  have hprobe : probeIdx st.buckets bc bc (hashKey h kv.1 % bc) ≠ none :=
    probeIdx_succeeds hlen hbc hstart hi0 hb0 hb0e
  cases hp : probeIdx st.buckets bc bc (hashKey h kv.1 % bc) with
  | none => exact absurd hp hprobe
  | some idx =>
    obtain ⟨j, hj, hpos, ⟨be, hbe, hbee⟩, hpath⟩ := probeIdx_spec hstart hp
    have hidxlt : idx < st.buckets.length :=
      (List.getElem?_eq_some_iff.mp hbe).1
    have hkne : hashKey h kv.1 ≠ 0 := hashKey_ne_zero h kv.1
    have hnm : idx ∉ ixs := by
      intro hmem
      obtain ⟨e, _, _, hbucket, _⟩ := forall2_mem_right hf hmem
      rw [hbe] at hbucket
      injection hbucket with hbucket
      rw [hbucket] at hbee
      simp only [] at hbee
      exact hashKey_ne_zero h e.1.1 hbee
    refine ⟨⟨st.buckets.set idx
        (hashKey h kv.1, st.current_blob_offset, 4 + kv.1.length + kv.2.length),
      st.blob_heap ++ le 4 kv.1.length ++ kv.1 ++ kv.2,
      st.current_blob_offset + (4 + kv.1.length + kv.2.length)⟩, ?_, ?_⟩
    · rw [insertStep]
      simp only [hp]
    · refine ⟨by simp [hlen], ?_, ?_, ixs ++ [idx], ?_, ?_, ?_⟩
      · show st.blob_heap ++ le 4 kv.1.length ++ kv.1 ++ kv.2 = _
        rw [hheap]
        simp [recBytes]
      · show st.current_blob_offset + (4 + kv.1.length + kv.2.length) =
          heapOff + (st.blob_heap ++ le 4 kv.1.length ++ kv.1 ++ kv.2).length
        rw [hcur]
        simp only [List.length_append, le_length]
        omega
      · rw [List.nodup_append]
        exact ⟨hnodup, List.nodup_singleton idx,
          fun a ha hb => by simp at hb; subst hb; exact hnm ha⟩
      · rw [hValOffs_append]
        show List.Forall₂ (PlaceOK h bc (st.buckets.set idx
          (hashKey h kv.1, st.current_blob_offset,
            4 + kv.1.length + kv.2.length))) _ _
        refine List.rel_append ?_ ?_
        · exact forall2_place_set hf hkne hidxlt hnm
        · refine List.Forall₂.cons ?_ List.Forall₂.nil
          refine ⟨by omega, ?_, j, hj, hpos, ?_⟩
          · show (st.buckets.set idx
              (hashKey h kv.1, st.current_blob_offset,
                4 + kv.1.length + kv.2.length))[idx]? = some
              (hashKey h kv.1, heapOff + ((E.map recBytes).flatten).length,
                recLen kv)
            rw [List.getElem?_set_eq_of_lt _ hidxlt]
            rw [hcur, hheap]
            rfl
          · intro t ht
            exact occupied_set hkne hidxlt (hpath t ht)
      · intro i b hb hbne
        have hb' : (st.buckets.set idx
            (hashKey h kv.1, st.current_blob_offset,
              4 + kv.1.length + kv.2.length))[i]? = some b := hb
        by_cases he : i = idx
        · subst he
          simp
        · rw [List.getElem?_set_ne (Ne.symm he)] at hb'
          simp [hconv i b hb' hbne]

/-- The builder's placement loop succeeds and establishes the invariant
whenever the bucket array offers one slot per entry. -/
theorem buildLoop_inv {h : List Nat → Nat} {bc heapOff : Nat}
    (hbc : 0 < bc) :
    ∀ (rest E : List (List Nat × List Nat)) (st : HBuild),
    BInv h bc heapOff E st → E.length + rest.length ≤ bc →
    ∃ st', buildLoop h bc rest st = some st' ∧
      BInv h bc heapOff (E ++ rest) st' := by
  intro rest
  induction rest with
  | nil =>
    intro E st hinv _
    exact ⟨st, rfl, by simpa using hinv⟩
  | cons kv rest' ih =>
    intro E st hinv hle
    obtain ⟨st₁, hstep, hinv₁⟩ := insertStep_inv kv hbc hinv (by simp at hle; omega)
    obtain ⟨st', hloop, hinv'⟩ := ih (E ++ [kv]) st₁ hinv₁ (by simp at hle ⊢; omega)
    refine ⟨st', ?_, ?_⟩
    · rw [buildLoop]
      simp only [hstep]
      exact hloop
    · rwa [List.append_assoc, List.singleton_append] at hinv'

/-- The builder's `finish` terminates (its unbounded probe loop always
finds an empty bucket) and satisfies the placement invariant. -/
theorem hashFinish_builds (h : List Nat → Nat)
    (pairs : List (List Nat × List Nat)) :
    ∃ st, buildLoop h (codeBucketCount pairs.length) pairs
        ⟨List.replicate (codeBucketCount pairs.length) (0, 0, 0), [],
          64 + codeBucketCount pairs.length * 24⟩ = some st ∧
      BInv h (codeBucketCount pairs.length)
        (64 + codeBucketCount pairs.length * 24) pairs st := by
  have hbc : 0 < codeBucketCount pairs.length := by
    rw [codeBucketCount]
    omega
  have hge := bucketCount_ge pairs.length
  have := buildLoop_inv hbc pairs []
    ⟨List.replicate (codeBucketCount pairs.length) (0, 0, 0), [],
      64 + codeBucketCount pairs.length * 24⟩
    (BInv_init h _ _) (by simpa using hge)
  simpa using this

/-! ### Opening the hash builder's output -/

theorem bucketsBytes_length (L : List (Nat × Nat × Nat)) :
    ((L.map bucketBytes).flatten).length = 24 * L.length := by
  induction L with
  | nil => rfl
  | cons b rest ih =>
    simp only [List.map_cons, List.flatten_cons, List.length_append, ih,
      List.length_cons]
    have hb : (bucketBytes b).length = 24 := by simp [bucketBytes]
    omega

/-- Parsing the serialized bucket array recovers the buckets, provided all
fields fit in 64 bits. -/
theorem parseBuckets_flatten {L : List (Nat × Nat × Nat)}
    (hL : ∀ b ∈ L, b.1 < 2 ^ 64 ∧ b.2.1 < 2 ^ 64 ∧ b.2.2 < 2 ^ 64) :
    parseBuckets L.length ((L.map bucketBytes).flatten) = L := by
  induction L with
  | nil => rfl
  | cons b rest ih =>
    obtain ⟨h1, h2, h3⟩ := hL b (by simp)
    have e1 : ((b :: rest).map bucketBytes).flatten =
        [] ++ le 8 b.1 ++ (le 8 b.2.1 ++ (le 8 b.2.2 ++
          (rest.map bucketBytes).flatten)) := by
      simp [bucketBytes]
    have e2 : ((b :: rest).map bucketBytes).flatten =
        le 8 b.1 ++ le 8 b.2.1 ++ (le 8 b.2.2 ++
          (rest.map bucketBytes).flatten) := by
      simp [bucketBytes]
    have e3 : ((b :: rest).map bucketBytes).flatten =
        (le 8 b.1 ++ le 8 b.2.1) ++ le 8 b.2.2 ++
          (rest.map bucketBytes).flatten := by
      simp [bucketBytes]
    have hr1 : readLE (((b :: rest).map bucketBytes).flatten) 0 8 = b.1 := by
      have h := readLE_spec_lt e1 (by rw [pow256_8]; exact h1)
      simpa using h
    have hr2 : readLE (((b :: rest).map bucketBytes).flatten) 8 8 = b.2.1 := by
      have h := readLE_spec_lt e2 (by rw [pow256_8]; exact h2)
      simpa using h
    have hr3 : readLE (((b :: rest).map bucketBytes).flatten) 16 8 = b.2.2 := by
      have h := readLE_spec_lt e3 (by rw [pow256_8]; exact h3)
      simpa using h
    have hdrop : (((b :: rest).map bucketBytes).flatten).drop 24 =
        (rest.map bucketBytes).flatten := by
      have hb24 : (bucketBytes b).length = 24 := by simp [bucketBytes]
      rw [List.map_cons, List.flatten_cons, ← hb24, List.drop_left]
    show (readLE _ 0 8, readLE _ 8 8, readLE _ 16 8) ::
      parseBuckets rest.length ((((b :: rest).map bucketBytes).flatten).drop 24)
        = b :: rest
    rw [hr1, hr2, hr3, hdrop, ih (fun x hx => hL x (List.mem_cons_of_mem _ hx))]

/-- The builder never writes a nonzero payload into a bucket it leaves
empty. -/
theorem insertStep_zero {h : List Nat → Nat} {bc : Nat} {st st' : HBuild}
    {kv : List Nat × List Nat} (hs : insertStep h bc st kv = some st')
    (hz : ∀ b ∈ st.buckets, b.1 = 0 → b = (0, 0, 0)) :
    ∀ b ∈ st'.buckets, b.1 = 0 → b = (0, 0, 0) := by
  rw [insertStep] at hs
  cases hp : probeIdx st.buckets bc bc (hashKey h kv.1 % bc) with
  | none =>
    simp only [hp] at hs
    cases hs
  | some idx =>
    simp only [hp] at hs
    injection hs with hs
    subst hs
    intro b hb h0
    rcases List.mem_or_eq_of_mem_set hb with hmem | heq
    · exact hz b hmem h0
    · subst heq
      exact absurd h0 (hashKey_ne_zero h kv.1)

theorem buildLoop_zero {h : List Nat → Nat} {bc : Nat} :
    ∀ (rest : List (List Nat × List Nat)) (st st' : HBuild),
    buildLoop h bc rest st = some st' →
    (∀ b ∈ st.buckets, b.1 = 0 → b = (0, 0, 0)) →
    ∀ b ∈ st'.buckets, b.1 = 0 → b = (0, 0, 0) := by
  intro rest
  induction rest with
  | nil =>
    intro st st' hl hz
    rw [buildLoop] at hl
    injection hl with hl
    subst hl
    exact hz
  | cons kv rest' ih =>
    intro st st' hl hz
    rw [buildLoop] at hl
    cases hs : insertStep h bc st kv with
    | none =>
      simp only [hs] at hl
      cases hl
    | some st₁ =>
      simp only [hs] at hl
      exact ih st₁ st' hl (insertStep_zero hs hz)

/-- Bounds on the bucket fields of an invariant-satisfying builder state. -/
theorem binv_bounds {h : List Nat → Nat} {bc heapOff : Nat}
    {E : List (List Nat × List Nat)} {st : HBuild}
    (hinv : BInv h bc heapOff E st)
    (hz : ∀ b ∈ st.buckets, b.1 = 0 → b = (0, 0, 0)) :
    ∀ b ∈ st.buckets, b.1 < 2 ^ 64 ∧
      b.2.1 + b.2.2 ≤ heapOff + ((E.map recBytes).flatten).length := by
  obtain ⟨hlen, hheap, hcur, ixs, hnodup, hf, hconv⟩ := hinv
  intro b hb
  by_cases h0 : b.1 = 0
  · have hbz := hz b hb h0
    subst hbz
    exact ⟨by norm_num, by simp⟩
  · obtain ⟨i, hi⟩ := List.mem_iff_getElem?.mp hb
    have hmem : i ∈ ixs := hconv i b hi h0
    obtain ⟨e, he, hok⟩ := forall2_mem_right hf hmem
    obtain ⟨_, hbucket, _⟩ := hok
    rw [hi] at hbucket
    injection hbucket with hbucket
    subst hbucket
    refine ⟨hashKey_lt h e.1.1, ?_⟩
    show e.2 + recLen e.1 ≤ heapOff + ((E.map recBytes).flatten).length
    obtain ⟨hp, hq, hflat, hplen, hle⟩ :=
      hHeap_slice (show (e.1, e.2) ∈ hValOffs heapOff E from he)
    have hfl : hp.length + recLen e.1 ≤ ((E.map recBytes).flatten).length := by
      rw [hflat]
      simp
    omega

/-- `open` succeeds on any file with the hash layout: magic, consistent
header fields, serialized buckets, heap. -/
theorem openStore_hashLayout {B : List (Nat × Nat × Nat)} {heap : List Nat}
    {bc n : Nat} (hblen : B.length = bc)
    (hbnd : ∀ b ∈ B, b.1 < 2 ^ 64 ∧ b.2.1 < 2 ^ 64 ∧ b.2.2 < 2 ^ 64)
    (hn : n < 2 ^ 64)
    (hsz : 64 + bc * 24 + heap.length < 2 ^ 64) :
    HashDatStore.openStore (HMAGIC ++ le 8 bc ++ le 8 (64 + bc * 24) ++
        le 8 n ++ List.replicate 32 0 ++ (B.map bucketBytes).flatten ++ heap) =
      some ⟨B, HMAGIC ++ le 8 bc ++ le 8 (64 + bc * 24) ++ le 8 n ++
        List.replicate 32 0 ++ (B.map bucketBytes).flatten ++ heap, bc, n⟩ := by
  have hF : (HMAGIC ++ le 8 bc ++ le 8 (64 + bc * 24) ++ le 8 n ++
      List.replicate 32 0 ++ (B.map bucketBytes).flatten ++ heap).length =
      64 + bc * 24 + heap.length := by
    simp only [List.length_append, le_length, List.length_replicate,
      bucketsBytes_length, hblen]
    have hm : HMAGIC.length = 8 := rfl
    omega
  have h8 : readLE (HMAGIC ++ le 8 bc ++ le 8 (64 + bc * 24) ++ le 8 n ++
      List.replicate 32 0 ++ (B.map bucketBytes).flatten ++ heap) 8 8 = bc := by
    have h := readLE_spec_lt
      (show HMAGIC ++ le 8 bc ++ le 8 (64 + bc * 24) ++ le 8 n ++
          List.replicate 32 0 ++ (B.map bucketBytes).flatten ++ heap =
        HMAGIC ++ le 8 bc ++ (le 8 (64 + bc * 24) ++ le 8 n ++
          List.replicate 32 0 ++ (B.map bucketBytes).flatten ++ heap) from by
        simp)
      (by rw [pow256_8]; omega)
    simpa [HMAGIC] using h
  have h16 : readLE (HMAGIC ++ le 8 bc ++ le 8 (64 + bc * 24) ++ le 8 n ++
      List.replicate 32 0 ++ (B.map bucketBytes).flatten ++ heap) 16 8 =
      64 + bc * 24 := by
    have h := readLE_spec_lt
      (show HMAGIC ++ le 8 bc ++ le 8 (64 + bc * 24) ++ le 8 n ++
          List.replicate 32 0 ++ (B.map bucketBytes).flatten ++ heap =
        (HMAGIC ++ le 8 bc) ++ le 8 (64 + bc * 24) ++ (le 8 n ++
          List.replicate 32 0 ++ (B.map bucketBytes).flatten ++ heap) from by
        simp)
      (by rw [pow256_8]; omega)
    simpa [HMAGIC] using h
  have h24 : readLE (HMAGIC ++ le 8 bc ++ le 8 (64 + bc * 24) ++ le 8 n ++
      List.replicate 32 0 ++ (B.map bucketBytes).flatten ++ heap) 24 8 = n := by
    have h := readLE_spec_lt
      (show HMAGIC ++ le 8 bc ++ le 8 (64 + bc * 24) ++ le 8 n ++
          List.replicate 32 0 ++ (B.map bucketBytes).flatten ++ heap =
        (HMAGIC ++ le 8 bc ++ le 8 (64 + bc * 24)) ++ le 8 n ++
          (List.replicate 32 0 ++ (B.map bucketBytes).flatten ++ heap) from by
        simp)
      (by rw [pow256_8]; exact hn)
    simpa [HMAGIC] using h
  have hm1 : (64 + bc * 24) % 2 ^ 64 = 64 + bc * 24 :=
    Nat.mod_eq_of_lt (by omega)
  have hm2 : bc * 24 % 2 ^ 64 = bc * 24 := Nat.mod_eq_of_lt (by omega)
  have hslice : readAt (HMAGIC ++ le 8 bc ++ le 8 (64 + bc * 24) ++ le 8 n ++
      List.replicate 32 0 ++ (B.map bucketBytes).flatten ++ heap) 64 (bc * 24) =
      some ((B.map bucketBytes).flatten) := by
    rw [readAt]
    have h := sliceBytes_spec
      (show HMAGIC ++ le 8 bc ++ le 8 (64 + bc * 24) ++ le 8 n ++
          List.replicate 32 0 ++ (B.map bucketBytes).flatten ++ heap =
        (HMAGIC ++ le 8 bc ++ le 8 (64 + bc * 24) ++ le 8 n ++
          List.replicate 32 0) ++ (B.map bucketBytes).flatten ++ heap from by
        simp)
    have hpre : (HMAGIC ++ le 8 bc ++ le 8 (64 + bc * 24) ++ le 8 n ++
        List.replicate 32 0).length = 64 := by simp [HMAGIC]
    rw [hpre, bucketsBytes_length, hblen] at h
    have hcomm : bc * 24 = 24 * bc := Nat.mul_comm bc 24
    rw [hcomm]
    exact h
  have hparse : parseBuckets bc ((B.map bucketBytes).flatten) = B := by
    rw [← hblen]
    exact parseBuckets_flatten hbnd
  unfold HashDatStore.openStore
  rw [if_neg (by rw [hF]; omega)]
  rw [if_neg ?_]
  · simp only [h8, h16, h24, hm1, hm2]
    rw [if_neg (not_ne_iff.mpr rfl)]
    simp only [hslice]
    rw [if_pos (by omega), hparse]
  · intro hne
    apply hne
    simp only [List.append_assoc]
    exact List.take_left' rfl

/-- `finish` on the hash builder succeeds, and `open` on its output
recovers the builder's bucket array, bucket count and entry count, with the
whole file retained as the data handle. -/
theorem hashFinish_open (h : List Nat → Nat)
    (pairs : List (List Nat × List Nat))
    (hsz : 64 + codeBucketCount pairs.length * 24 +
      ((pairs.map recBytes).flatten).length < 2 ^ 64) :
    ∃ st F,
      BInv h (codeBucketCount pairs.length)
        (64 + codeBucketCount pairs.length * 24) pairs st ∧
      (∀ b ∈ st.buckets, b.1 = 0 → b = (0, 0, 0)) ∧
      hashFinish h pairs = some F ∧
      F = HMAGIC ++ le 8 (codeBucketCount pairs.length) ++
        le 8 (64 + codeBucketCount pairs.length * 24) ++ le 8 pairs.length ++
        List.replicate 32 0 ++ (st.buckets.map bucketBytes).flatten ++
        (pairs.map recBytes).flatten ∧
      HashDatStore.openStore F =
        some ⟨st.buckets, F, codeBucketCount pairs.length, pairs.length⟩ := by
  obtain ⟨st, hloop, hinv⟩ := hashFinish_builds h pairs
  have hz : ∀ b ∈ st.buckets, b.1 = 0 → b = (0, 0, 0) := by
    refine buildLoop_zero pairs _ st hloop ?_
    intro b hb h0
    exact List.eq_of_mem_replicate hb
  have hbnd : ∀ b ∈ st.buckets, b.1 < 2 ^ 64 ∧ b.2.1 < 2 ^ 64 ∧
      b.2.2 < 2 ^ 64 := by
    intro b hb
    have := binv_bounds hinv hz b hb
    exact ⟨this.1, by omega, by omega⟩
  have hheap : st.blob_heap = (pairs.map recBytes).flatten := hinv.2.1
  have hblen : st.buckets.length = codeBucketCount pairs.length := hinv.1
  have hbge : pairs.length ≤ codeBucketCount pairs.length := bucketCount_ge _
  refine ⟨st, _, hinv, hz, ?_, rfl, ?_⟩
  · rw [hashFinish]
    simp only [hloop]
    rw [hheap]
  · exact openStore_hashLayout hblen hbnd (by omega) (by omega)

/-! ### Heap-record reads on a hash file -/

theorem record_read4 {F pre post : List Nat} {kv : List Nat × List Nat}
    (hF : F = pre ++ recBytes kv ++ post) :
    readAt F pre.length 4 = some (le 4 kv.1.length) := by
  rw [readAt]
  have h := sliceBytes_spec (show F =
      pre ++ le 4 kv.1.length ++ (kv.1 ++ (kv.2 ++ post)) from by
    simp [hF, recBytes])
  simpa using h

theorem record_read_key {F pre post : List Nat} {kv : List Nat × List Nat}
    (hF : F = pre ++ recBytes kv ++ post) :
    readAt F (pre.length + 4) kv.1.length = some kv.1 := by
  rw [readAt]
  have h := sliceBytes_spec (show F =
      (pre ++ le 4 kv.1.length) ++ kv.1 ++ (kv.2 ++ post) from by
    simp [hF, recBytes])
  simpa using h

/-- `get_blob` on a whole heap record returns the stored value. -/
theorem record_get_blob {s : HashDatStore} {pre post : List Nat}
    {kv : List Nat × List Nat} (hF : s.fileData = pre ++ recBytes kv ++ post)
    (hk : kv.1.length < 2 ^ 32) :
    s.get_blob pre.length (recLen kv) = some kv.2 := by
  rw [HashDatStore.get_blob]
  have hs : readAt s.fileData pre.length (recLen kv) = some (recBytes kv) := by
    rw [readAt]
    have h := sliceBytes_spec hF
    rwa [recBytes_length] at h
  simp only [hs]
  rw [if_neg (by rw [recBytes_length, recLen]; omega)]
  have htake : (recBytes kv).take 4 = le 4 kv.1.length := by
    rw [recBytes, List.append_assoc]
    exact List.take_left' (by simp)
  have hdl : deLE ((recBytes kv).take 4) = kv.1.length := by
    rw [htake]
    exact deLE_le_of_lt (by rw [pow256_4]; exact hk)
  simp only [hdl]
  rw [if_pos (by rw [recLen]; omega)]
  have hdrop : (recBytes kv).drop (4 + kv.1.length) = kv.2 := by
    rw [recBytes]
    have hl : (le 4 kv.1.length ++ kv.1).length = 4 + kv.1.length := by simp
    rw [← hl, List.drop_left]
  rw [hdrop]

/-! ### The probe loop, one step at a time -/

/-- The outcome of inspecting one bucket during `find_key`'s probe loop:
`none` means "continue to the next bucket"; `some r` means the loop stops
with overall result `r` (`r = none` is a read panic, `r = some none` an
empty-bucket miss, `r = some (some _)` a hit). -/
def stepRes (s : HashDatStore) (key : List Nat) (kh i : Nat) :
    Option (Option (Option (Nat × Nat))) :=
  match s.buckets[i]? with
  | none => some none
  | some (sh, bo, bl) =>
    if sh = 0 then some (some none)
    else if sh = kh then
      match readAt s.fileData bo 4 with
      | none => some none
      | some klb =>
        match readAt s.fileData (bo + 4) (deLE klb) with
        | none => some none
        | some sk => if sk = key then some (some (some (bo, bl))) else none
    else none

theorem findAux_succ (s : HashDatStore) (key : List Nat) (kh fuel idx : Nat) :
    findAux s key kh (fuel + 1) idx =
      match stepRes s key kh idx with
      | some r => r
      | none => findAux s key kh fuel ((idx + 1) % s.bucket_count) := by
  cases hb : s.buckets[idx]? with
  | none =>
    rw [findAux, stepRes]
    simp only [hb]
  | some b =>
    obtain ⟨sh, bo, bl⟩ := b
    by_cases h0 : sh = 0
    · rw [findAux, stepRes]
      simp [hb, h0]
    · by_cases hkh : sh = kh
      · subst hkh
        cases h4 : readAt s.fileData bo 4 with
        | none =>
          rw [findAux, stepRes]
          simp [hb, h0, h4]
        | some klb =>
          cases hk : readAt s.fileData (bo + 4) (deLE klb) with
          | none =>
            rw [findAux, stepRes]
            simp [hb, h0, h4, hk]
          | some sk =>
            by_cases hsk : sk = key
            · rw [findAux, stepRes]
              simp [hb, h0, h4, hk, hsk]
            · rw [findAux, stepRes]
              simp [hb, h0, h4, hk, hsk]
      · rw [findAux, stepRes]
        simp [hb, h0, hkh]

/-- If the first `j` probed buckets say "continue" and the `j`-th stops
with result `r`, the loop returns `r` (given fuel beyond `j`). -/
theorem findAux_stop {s : HashDatStore} {key : List Nat} {kh : Nat}
    {r : Option (Option (Nat × Nat))} :
    ∀ (j fuel idx : Nat), j < fuel → idx < s.bucket_count →
    (∀ t < j, stepRes s key kh ((idx + t) % s.bucket_count) = none) →
    stepRes s key kh ((idx + j) % s.bucket_count) = some r →
    findAux s key kh fuel idx = r := by
  intro j
  induction j with
  | zero =>
    intro fuel idx hj hidx hpath hstop
    obtain ⟨f, rfl⟩ : ∃ f, fuel = f + 1 := ⟨fuel - 1, by omega⟩
    rw [findAux_succ]
    rw [show (idx + 0) % s.bucket_count = idx from by
      rw [Nat.add_zero, Nat.mod_eq_of_lt hidx]] at hstop
    rw [hstop]
  | succ j ih =>
    intro fuel idx hj hidx hpath hstop
    obtain ⟨f, rfl⟩ : ∃ f, fuel = f + 1 := ⟨fuel - 1, by omega⟩
    rw [findAux_succ]
    have h0 := hpath 0 (by omega)
    rw [show (idx + 0) % s.bucket_count = idx from by
      rw [Nat.add_zero, Nat.mod_eq_of_lt hidx]] at h0
    rw [h0]
    refine ih f ((idx + 1) % s.bucket_count) (by omega)
      (Nat.mod_lt _ (by omega)) ?_ ?_
    · intro t ht
      rw [mod_probe_shift]
      exact hpath (t + 1) (by omega)
    · rw [mod_probe_shift]
      exact hstop

/-- If every probed bucket in the cycle says "continue", the loop runs out
of fuel and reports a miss, whatever the fuel. -/
theorem findAux_all_cont {s : HashDatStore} {key : List Nat} {kh : Nat} :
    ∀ (fuel idx : Nat), idx < s.bucket_count →
    (∀ t < s.bucket_count,
      stepRes s key kh ((idx + t) % s.bucket_count) = none) →
    findAux s key kh fuel idx = some none := by
  intro fuel
  induction fuel with
  | zero =>
    intro idx _ _
    rfl
  | succ f ih =>
    intro idx hidx hpath
    rw [findAux_succ]
    have h0 := hpath 0 (by omega)
    rw [show (idx + 0) % s.bucket_count = idx from by
      rw [Nat.add_zero, Nat.mod_eq_of_lt hidx]] at h0
    rw [h0]
    refine ih ((idx + 1) % s.bucket_count) (Nat.mod_lt _ (by omega)) ?_
    intro t ht
    rw [mod_probe_shift]
    by_cases hteq : t + 1 < s.bucket_count
    · exact hpath (t + 1) hteq
    · have ht1 : t + 1 = s.bucket_count := by omega
      rw [ht1, Nat.add_mod_right, Nat.mod_eq_of_lt hidx]
      exact h0

/-- Beyond `bucket_count` iterations the extra budget is irrelevant: the
probe loop's result is already decided after `bucket_count` probes. -/
theorem findAux_fuel_stable (s : HashDatStore) (key : List Nat) (kh : Nat)
    (fuel idx : Nat) (hidx : idx < s.bucket_count)
    (hfuel : s.bucket_count ≤ fuel) :
    findAux s key kh fuel idx = findAux s key kh s.bucket_count idx := by
  by_cases hex : ∃ t, t < s.bucket_count ∧
      stepRes s key kh ((idx + t) % s.bucket_count) ≠ none
  · obtain ⟨hjlt, hjne⟩ := Nat.find_spec hex
    have hmin : ∀ t < Nat.find hex,
        stepRes s key kh ((idx + t) % s.bucket_count) = none := by
      intro t ht
      have hm := Nat.find_min hex ht
      push_neg at hm
      exact hm (by omega)
    cases hr : stepRes s key kh ((idx + Nat.find hex) % s.bucket_count) with
    | none => exact absurd hr hjne
    | some r =>
      rw [findAux_stop (Nat.find hex) fuel idx (by omega) hidx hmin hr,
        findAux_stop (Nat.find hex) s.bucket_count idx hjlt hidx hmin hr]
  · push_neg at hex
    rw [findAux_all_cont fuel idx hidx hex,
      findAux_all_cont s.bucket_count idx hidx hex]

/-- If every in-range bucket either continues the probe or is empty, the
loop reports a miss for any fuel (in particular on a saturated table). -/
theorem findAux_miss {s : HashDatStore} {key : List Nat} {kh : Nat}
    (hall : ∀ i < s.bucket_count, stepRes s key kh i = none ∨
      stepRes s key kh i = some (some none)) :
    ∀ (fuel idx : Nat), idx < s.bucket_count →
    findAux s key kh fuel idx = some none := by
  intro fuel
  induction fuel with
  | zero =>
    intro idx _
    rfl
  | succ f ih =>
    intro idx hidx
    rw [findAux_succ]
    rcases hall idx hidx with hc | hs
    · rw [hc]
      exact ih ((idx + 1) % s.bucket_count) (Nat.mod_lt _ (by omega))
    · rw [hs]

/-! ### `get` on a store opened from the hash builder's output -/

/-- The store value produced by opening a file sealed by the hash builder
from final builder state `st`. -/
def builtHStore (h : List Nat → Nat) (pairs : List (List Nat × List Nat))
    (st : HBuild) : HashDatStore :=
  ⟨st.buckets,
    HMAGIC ++ le 8 (codeBucketCount pairs.length) ++
      le 8 (64 + codeBucketCount pairs.length * 24) ++ le 8 pairs.length ++
      List.replicate 32 0 ++ (st.buckets.map bucketBytes).flatten ++
      (pairs.map recBytes).flatten,
    codeBucketCount pairs.length, pairs.length⟩

/-- `hashFinish_open`, packaged through `builtHStore`. -/
theorem hashFinish_open' (h : List Nat → Nat)
    (pairs : List (List Nat × List Nat))
    (hsz : 64 + codeBucketCount pairs.length * 24 +
      ((pairs.map recBytes).flatten).length < 2 ^ 64) :
    ∃ st,
      BInv h (codeBucketCount pairs.length)
        (64 + codeBucketCount pairs.length * 24) pairs st ∧
      hashFinish h pairs = some (builtHStore h pairs st).fileData ∧
      HashDatStore.openStore (builtHStore h pairs st).fileData =
        some (builtHStore h pairs st) := by
  obtain ⟨st, F, hinv, hz, hfin, hFdef, hopen⟩ := hashFinish_open h pairs hsz
  subst hFdef
  exact ⟨st, hinv, hfin, hopen⟩

theorem hValOffs_map_fst (E : List (List Nat × List Nat)) (s : Nat) :
    (hValOffs s E).map Prod.fst = E := by
  induction E generalizing s with
  | nil => rfl
  | cons kv rest ih => simp [hValOffs, ih]

theorem exists_hValOffs_of_mem {E : List (List Nat × List Nat)}
    {kv : List Nat × List Nat} (hm : kv ∈ E) (s : Nat) :
    ∃ off, (kv, off) ∈ hValOffs s E := by
  induction E generalizing s with
  | nil => cases hm
  | cons kv' rest ih =>
    rcases List.mem_cons.mp hm with hm' | hm'
    · subst hm'
      exact ⟨s, by simp [hValOffs]⟩
    · obtain ⟨off, hoff⟩ := ih hm' (s + recLen kv')
      exact ⟨off, by simp [hValOffs, hoff]⟩

/-- Two distinct probe steps within one cycle land on distinct buckets. -/
theorem probe_path_ne {home t j bc : Nat} (ht : t < j) (hj : j < bc) :
    (home + t) % bc ≠ (home + j) % bc := by
  intro he
  have hme : Nat.ModEq bc (home + t) (home + j) := he
  have hme' : Nat.ModEq bc t j := Nat.ModEq.add_left_cancel' home hme
  have heq : t % bc = j % bc := hme'
  rw [Nat.mod_eq_of_lt (by omega), Nat.mod_eq_of_lt hj] at heq
  omega

/-- Reading a placed record back out of the built hash file. -/
theorem built_record_reads {h : List Nat → Nat}
    {pairs : List (List Nat × List Nat)} {st : HBuild}
    (hblen : st.buckets.length = codeBucketCount pairs.length)
    {e : (List Nat × List Nat) × Nat}
    (he : e ∈ hValOffs (64 + codeBucketCount pairs.length * 24) pairs)
    (hk : e.1.1.length < 2 ^ 32) :
    readAt (builtHStore h pairs st).fileData e.2 4 =
      some (le 4 e.1.1.length) ∧
    readAt (builtHStore h pairs st).fileData (e.2 + 4) e.1.1.length =
      some e.1.1 ∧
    (builtHStore h pairs st).get_blob e.2 (recLen e.1) = some e.1.2 := by
  obtain ⟨hp, hq, hflat, hplen, hle⟩ :=
    hHeap_slice (show (e.1, e.2) ∈ hValOffs _ pairs from he)
  have hdecomp : (builtHStore h pairs st).fileData =
      (HMAGIC ++ le 8 (codeBucketCount pairs.length) ++
        le 8 (64 + codeBucketCount pairs.length * 24) ++ le 8 pairs.length ++
        List.replicate 32 0 ++ (st.buckets.map bucketBytes).flatten ++ hp) ++
      recBytes e.1 ++ hq := by
    show HMAGIC ++ le 8 (codeBucketCount pairs.length) ++
        le 8 (64 + codeBucketCount pairs.length * 24) ++ le 8 pairs.length ++
        List.replicate 32 0 ++ (st.buckets.map bucketBytes).flatten ++
        (pairs.map recBytes).flatten = _
    rw [hflat]
    simp
  have hprelen : (HMAGIC ++ le 8 (codeBucketCount pairs.length) ++
      le 8 (64 + codeBucketCount pairs.length * 24) ++ le 8 pairs.length ++
      List.replicate 32 0 ++ (st.buckets.map bucketBytes).flatten ++
      hp).length = e.2 := by
    simp only [List.length_append, le_length, List.length_replicate,
      bucketsBytes_length, hblen, hplen]
    have hm : HMAGIC.length = 8 := rfl
    omega
  refine ⟨?_, ?_, ?_⟩
  · have hr := record_read4 hdecomp
    rwa [hprelen] at hr
  · have hr := record_read_key hdecomp
    rwa [hprelen] at hr
  · have hr := record_get_blob hdecomp hk
    rwa [hprelen] at hr

/-- With unique keys, a heap entry is determined by its key. -/
theorem hValOffs_inj {pairs : List (List Nat × List Nat)} {s : Nat}
    (hnd : (pairs.map Prod.fst).Nodup)
    {e e' : (List Nat × List Nat) × Nat}
    (he : e ∈ hValOffs s pairs) (he' : e' ∈ hValOffs s pairs)
    (hkey : e.1.1 = e'.1.1) : e = e' := by
  have hpnd : pairs.Nodup := List.Nodup.of_map _ hnd
  have hmnd : ((hValOffs s pairs).map Prod.fst).Nodup := by
    rw [hValOffs_map_fst]
    exact hpnd
  have h1 : e.1 = e'.1 :=
    List.inj_on_of_nodup_map hnd (mem_hValOffs_fst he) (mem_hValOffs_fst he')
      hkey
  exact List.inj_on_of_nodup_map hmnd he he' h1

/-- What the probe loop sees at a bucket holding a placed entry `e`. -/
theorem built_stepRes_of_placed {h : List Nat → Nat}
    {pairs : List (List Nat × List Nat)} {st : HBuild} {key : List Nat}
    {i : Nat} (hblen : st.buckets.length = codeBucketCount pairs.length)
    (hklen : ∀ kv ∈ pairs, kv.1.length < 2 ^ 32)
    {e : (List Nat × List Nat) × Nat}
    (he : e ∈ hValOffs (64 + codeBucketCount pairs.length * 24) pairs)
    (hb : st.buckets[i]? = some (hashKey h e.1.1, e.2, recLen e.1)) :
    stepRes (builtHStore h pairs st) key (hashKey h key) i =
      if hashKey h e.1.1 = hashKey h key then
        (if e.1.1 = key then some (some (some (e.2, recLen e.1))) else none)
      else none := by
  obtain ⟨hr4, hrk, _⟩ :=
    built_record_reads (h := h) hblen he (hklen e.1 (mem_hValOffs_fst he))
  rw [stepRes]
  have hb' : (builtHStore h pairs st).buckets[i]? =
      some (hashKey h e.1.1, e.2, recLen e.1) := hb
  simp only [hb']
  rw [if_neg (hashKey_ne_zero h e.1.1)]
  by_cases hh : hashKey h e.1.1 = hashKey h key
  · rw [if_pos hh, if_pos hh]
    simp only [hr4]
    have hdl : deLE (le 4 e.1.1.length) = e.1.1.length :=
      deLE_le_of_lt (by rw [pow256_4]; exact hklen e.1 (mem_hValOffs_fst he))
    rw [hdl]
    simp only [hrk]
  · rw [if_neg hh, if_neg hh]

/-- `get` on the opened built hash store returns the stored value for every
inserted key (keys unique). -/
theorem built_get_hit {h : List Nat → Nat} {pairs : List (List Nat × List Nat)}
    {st : HBuild} {k v : List Nat}
    (hinv : BInv h (codeBucketCount pairs.length)
      (64 + codeBucketCount pairs.length * 24) pairs st)
    (hnd : (pairs.map Prod.fst).Nodup)
    (hkv : (k, v) ∈ pairs)
    (hklen : ∀ kv ∈ pairs, kv.1.length < 2 ^ 32) :
    (builtHStore h pairs st).get h k = some (some v) := by
  obtain ⟨hblen, hheap, hcur, ixs, hnodup, hf, hconv⟩ := hinv
  obtain ⟨hlen2, hget⟩ := List.forall₂_iff_get.mp hf
  obtain ⟨off, hoff⟩ :=
    exists_hValOffs_of_mem hkv (64 + codeBucketCount pairs.length * 24)
  obtain ⟨⟨p, hp⟩, hgetp⟩ := List.mem_iff_get.mp hoff
  have hpix : p < ixs.length := by omega
  have hmnd : ((hValOffs (64 + codeBucketCount pairs.length * 24)
      pairs).map Prod.fst).Nodup := by
    rw [hValOffs_map_fst]
    exact List.Nodup.of_map _ hnd
  have hlnodup := List.Nodup.of_map _ hmnd
  have hok : PlaceOK h (codeBucketCount pairs.length) st.buckets ((k, v), off)
      (ixs.get ⟨p, hpix⟩) := by
    have hR := hget p hp hpix
    rwa [hgetp] at hR
  obtain ⟨hidxlt, hbucket, j, hj, hpos, hpath⟩ := hok
  have hbc0 : 0 < codeBucketCount pairs.length := by
    rw [codeBucketCount]
    omega
  have hbucket' : st.buckets[ixs.get ⟨p, hpix⟩]? =
      some (hashKey h k, off, recLen (k, v)) := hbucket
  have hpos' : ixs.get ⟨p, hpix⟩ =
      (hashKey h k % codeBucketCount pairs.length + j) %
        codeBucketCount pairs.length := hpos
  have hpath' : ∀ t < j, ∃ b : Nat × Nat × Nat,
      st.buckets[(hashKey h k % codeBucketCount pairs.length + t) %
        codeBucketCount pairs.length]? = some b ∧ b.1 ≠ 0 := hpath
  have hmiss : ∀ t < j, stepRes (builtHStore h pairs st) k (hashKey h k)
      ((hashKey h k % codeBucketCount pairs.length + t) %
        codeBucketCount pairs.length) = none := by
    intro t ht
    obtain ⟨b, hbt, hbne⟩ := hpath' t ht
    have hmem : ((hashKey h k % codeBucketCount pairs.length + t) %
        codeBucketCount pairs.length) ∈ ixs := hconv _ b hbt hbne
    obtain ⟨⟨q, hq⟩, hgetq⟩ := List.mem_iff_get.mp hmem
    have hqx : q < (hValOffs (64 + codeBucketCount pairs.length * 24)
        pairs).length := by omega
    have hRq := hget q hqx hq
    rw [hgetq] at hRq
    obtain ⟨_, hbq, _⟩ := hRq
    rw [built_stepRes_of_placed hblen hklen
      (List.get_mem (hValOffs (64 + codeBucketCount pairs.length * 24) pairs)
        q hqx) hbq]
    by_cases hh : hashKey h ((hValOffs
        (64 + codeBucketCount pairs.length * 24) pairs).get ⟨q, hqx⟩).1.1 =
        hashKey h k
    · rw [if_pos hh]
      by_cases hek : ((hValOffs (64 + codeBucketCount pairs.length * 24)
          pairs).get ⟨q, hqx⟩).1.1 = k
      · exfalso
        have hee : (hValOffs (64 + codeBucketCount pairs.length * 24)
            pairs).get ⟨q, hqx⟩ = ((k, v), off) :=
          hValOffs_inj hnd
            (List.get_mem (hValOffs
              (64 + codeBucketCount pairs.length * 24) pairs) q hqx)
            hoff hek
        have hfin : (⟨q, hqx⟩ : Fin (hValOffs
            (64 + codeBucketCount pairs.length * 24) pairs).length) =
            ⟨p, hp⟩ :=
          List.nodup_iff_injective_get.mp hlnodup (by rw [hee, hgetp])
        have hqp : q = p := congrArg Fin.val hfin
        subst hqp
        exact probe_path_ne ht hj (by rw [← hgetq]; exact hpos')
      · rw [if_neg hek]
    · rw [if_neg hh]
  have hhitb : st.buckets[(hashKey h k % codeBucketCount pairs.length + j) %
      codeBucketCount pairs.length]? =
      some (hashKey h k, off, recLen (k, v)) := by
    rw [← hpos']
    exact hbucket'
  have hhit : stepRes (builtHStore h pairs st) k (hashKey h k)
      ((hashKey h k % codeBucketCount pairs.length + j) %
        codeBucketCount pairs.length) =
      some (some (some (off, recLen (k, v)))) := by
    have hstep := @built_stepRes_of_placed h pairs st k
      ((hashKey h k % codeBucketCount pairs.length + j) %
        codeBucketCount pairs.length) hblen hklen ((k, v), off) hoff hhitb
    simpa using hstep
  have hfind : (builtHStore h pairs st).find_key h k =
      some (some (off, recLen (k, v))) := by
    rw [HashDatStore.find_key]
    rw [if_neg (by show ¬ (codeBucketCount pairs.length = 0); omega)]
    exact findAux_stop j (builtHStore h pairs st).bucket_count
      (hashKey h k % (builtHStore h pairs st).bucket_count)
      hj (Nat.mod_lt _ hbc0) hmiss hhit
  obtain ⟨_, _, hgb⟩ := built_record_reads (h := h) hblen hoff
    (hklen (k, v) hkv)
  have hgb' : (builtHStore h pairs st).get_blob off (recLen (k, v)) =
      some v := hgb
  rw [HashDatStore.get]
  simp only [hfind, hgb']

/-- `get` on the opened built hash store reports absence for every key not
inserted. -/
theorem built_get_miss {h : List Nat → Nat}
    {pairs : List (List Nat × List Nat)} {st : HBuild} {k : List Nat}
    (hinv : BInv h (codeBucketCount pairs.length)
      (64 + codeBucketCount pairs.length * 24) pairs st)
    (hmiss : k ∉ pairs.map Prod.fst)
    (hklen : ∀ kv ∈ pairs, kv.1.length < 2 ^ 32) :
    (builtHStore h pairs st).get h k = some none := by
  obtain ⟨hblen, hheap, hcur, ixs, hnodup, hf, hconv⟩ := hinv
  obtain ⟨hlen2, hget⟩ := List.forall₂_iff_get.mp hf
  have hbc0 : 0 < codeBucketCount pairs.length := by
    rw [codeBucketCount]
    omega
  have hall : ∀ i < (builtHStore h pairs st).bucket_count,
      stepRes (builtHStore h pairs st) k (hashKey h k) i = none ∨
      stepRes (builtHStore h pairs st) k (hashKey h k) i =
        some (some none) := by
    intro i hi
    cases hb : st.buckets[i]? with
    | none =>
      exfalso
      rw [List.getElem?_eq_none_iff] at hb
      have hi' : i < codeBucketCount pairs.length := hi
      omega
    | some b =>
      obtain ⟨sh, bo, bl⟩ := b
      by_cases h0 : sh = 0
      · right
        rw [stepRes]
        have hb' : (builtHStore h pairs st).buckets[i]? = some (sh, bo, bl) :=
          hb
        simp only [hb']
        rw [if_pos h0]
      · left
        have hmem : i ∈ ixs := hconv i (sh, bo, bl) hb h0
        obtain ⟨⟨q, hq⟩, hgetq⟩ := List.mem_iff_get.mp hmem
        have hqx : q < (hValOffs (64 + codeBucketCount pairs.length * 24)
            pairs).length := by omega
        have hRq := hget q hqx hq
        rw [hgetq] at hRq
        obtain ⟨_, hbq, _⟩ := hRq
        rw [built_stepRes_of_placed hblen hklen
          (List.get_mem (hValOffs (64 + codeBucketCount pairs.length * 24)
            pairs) q hqx) hbq]
        by_cases hh : hashKey h ((hValOffs
            (64 + codeBucketCount pairs.length * 24) pairs).get
              ⟨q, hqx⟩).1.1 = hashKey h k
        · rw [if_pos hh]
          rw [if_neg ?_]
          intro hek
          apply hmiss
          rw [← hek]
          exact List.mem_map.mpr ⟨((hValOffs
            (64 + codeBucketCount pairs.length * 24) pairs).get ⟨q, hqx⟩).1,
            mem_hValOffs_fst (List.get_mem (hValOffs
              (64 + codeBucketCount pairs.length * 24) pairs) q hqx), rfl⟩
        · rw [if_neg hh]
  have hfind : (builtHStore h pairs st).find_key h k = some none := by
    rw [HashDatStore.find_key]
    rw [if_neg (by show ¬ (codeBucketCount pairs.length = 0); omega)]
    exact findAux_miss hall (builtHStore h pairs st).bucket_count
      (hashKey h k % (builtHStore h pairs st).bucket_count)
      (Nat.mod_lt _ hbc0)
  rw [HashDatStore.get]
  simp only [hfind]

/-! ### Reads stay below the declared heap boundary (flat scans) -/

theorem sliceBytes_take {data : List Nat} {bend off len : Nat}
    (h : off + len ≤ bend) :
    sliceBytes (data.take bend) off len = sliceBytes data off len := by
  by_cases hlen : data.length ≤ bend
  · rw [List.take_of_length_le hlen]
  · push_neg at hlen
    rw [sliceBytes, sliceBytes]
    have hl : (data.take bend).length = bend := by
      rw [List.length_take]
      omega
    rw [if_pos (by omega), if_pos (by omega)]
    congr 1
    rw [List.drop_take, List.take_take]
    congr 1
    omega

theorem findLoop_take_aux (data : List Nat) (bend : Nat) (key : List Nat) :
    ∀ (n off : Nat), bend - off ≤ n →
    findLoop data bend key off = findLoop (data.take bend) bend key off := by
  intro n
  induction n with
  | zero =>
    intro off h
    rw [findLoop, findLoop]
    rw [if_neg (by omega), if_neg (by omega)]
  | succ n ih =>
    intro off h
    by_cases hoff : off < bend
    · rw [findLoop, findLoop]
      rw [if_pos hoff, if_pos hoff]
      by_cases h4 : bend < off + 4
      · rw [if_pos h4, if_pos h4]
      · rw [if_neg h4, if_neg h4]
        rw [sliceBytes_take (by omega)]
        cases hs : sliceBytes data off 4 with
        | none => rfl
        | some klb =>
          by_cases hkl : bend < off + 4 + deLE klb + 16
          · simp only [if_pos hkl]
          · simp only [if_neg hkl]
            push_neg at hkl
            rw [sliceBytes_take (by omega), sliceBytes_take (by omega),
              sliceBytes_take (by omega)]
            cases h1 : sliceBytes data (off + 4) (deLE klb) with
            | none => rfl
            | some ek =>
              cases h2 : sliceBytes data (off + 4 + deLE klb) 8 with
              | none => rfl
              | some bo =>
                cases h3 : sliceBytes data (off + 4 + deLE klb + 8) 8 with
                | none => rfl
                | some bl =>
                  show (match lexCmp ek key with
                    | Ordering.eq => some (some (deLE bo, deLE bl))
                    | Ordering.gt => some none
                    | Ordering.lt =>
                      findLoop data bend key (off + 4 + deLE klb + 16)) =
                    (match lexCmp ek key with
                    | Ordering.eq => some (some (deLE bo, deLE bl))
                    | Ordering.gt => some none
                    | Ordering.lt => findLoop (List.take bend data) bend key
                        (off + 4 + deLE klb + 16))
                  cases hc : lexCmp ek key with
                  | eq => rfl
                  | gt => rfl
                  | lt => exact ih (off + 4 + deLE klb + 16) (by omega)
    · rw [findLoop, findLoop]
      rw [if_neg hoff, if_neg hoff]

/-- The flat lookup scan depends only on the bytes below the declared heap
boundary: it never reads past it. -/
theorem findLoop_take (data : List Nat) (bend : Nat) (key : List Nat)
    (off : Nat) :
    findLoop data bend key off = findLoop (data.take bend) bend key off :=
  findLoop_take_aux data bend key (bend - off) off (le_refl _)

theorem keysLoop_take_aux (data : List Nat) (bend : Nat) :
    ∀ (n off : Nat), bend - off ≤ n →
    keysLoop data bend off = keysLoop (data.take bend) bend off := by
  intro n
  induction n with
  | zero =>
    intro off h
    rw [keysLoop, keysLoop]
    rw [if_neg (by omega), if_neg (by omega)]
  | succ n ih =>
    intro off h
    by_cases hoff : off < bend
    · rw [keysLoop, keysLoop]
      rw [if_pos hoff, if_pos hoff]
      by_cases h4 : bend < off + 4
      · rw [if_pos h4, if_pos h4]
      · rw [if_neg h4, if_neg h4]
        rw [sliceBytes_take (by omega)]
        cases hs : sliceBytes data off 4 with
        | none => rfl
        | some klb =>
          by_cases hkl : bend < off + 4 + deLE klb + 16
          · simp only [if_pos hkl]
          · simp only [if_neg hkl]
            push_neg at hkl
            rw [sliceBytes_take (by omega)]
            cases h1 : sliceBytes data (off + 4) (deLE klb) with
            | none => rfl
            | some ek =>
              rw [ih (off + 4 + deLE klb + 16) (by omega)]
    · rw [keysLoop, keysLoop]
      rw [if_neg hoff, if_neg hoff]

/-- The flat `keys` scan also reads only below the heap boundary. -/
theorem keysLoop_take (data : List Nat) (bend off : Nat) :
    keysLoop data bend off = keysLoop (data.take bend) bend off :=
  keysLoop_take_aux data bend (bend - off) off (le_refl _)

/-- A flat blob read whose range exceeds the mapped file errors out. -/
theorem bget_blob_oob (s : BTreeDatStore) (off len : Nat)
    (h : s.mmap.length < off + len) : s.get_blob off len = none := by
  rw [BTreeDatStore.get_blob]
  exact sliceBytes_none_iff.mpr h

/-- A flat blob read succeeds only within the mapped file. -/
theorem bget_blob_inbounds {s : BTreeDatStore} {off len : Nat}
    {v : List Nat} (h : s.get_blob off len = some v) :
    off + len ≤ s.mmap.length := by
  rw [BTreeDatStore.get_blob] at h
  exact (sliceBytes_eq_some h).1

/-- A hash blob read whose range exceeds the file errors out. -/
theorem hget_blob_oob (s : HashDatStore) (off len : Nat)
    (h : s.fileData.length < off + len) : s.get_blob off len = none := by
  rw [HashDatStore.get_blob, readAt]
  rw [sliceBytes_none_iff.mpr h]

/-- A hash blob read succeeds only within the file. -/
theorem hget_blob_inbounds {s : HashDatStore} {off len : Nat}
    {v : List Nat} (h : s.get_blob off len = some v) :
    off + len ≤ s.fileData.length := by
  rw [HashDatStore.get_blob, readAt] at h
  cases hs : sliceBytes s.fileData off len with
  | none =>
    rw [hs] at h
    cases h
  | some bd =>
    exact (sliceBytes_eq_some hs).1

/-! ### Concrete values of the `f64` bucket-count computation -/

theorem findExp_unique {q : ℚ} {e : ℤ} (hq : 0 < q)
    (h1 : (2 : ℚ) ^ e ≤ q) (h2 : q < (2 : ℚ) ^ (e + 1)) : findExp q = e := by
  obtain ⟨ha, hb⟩ := findExp_spec hq
  by_contra hne
  rcases lt_or_gt_of_ne hne with hlt | hgt
  · have hle : (2 : ℚ) ^ (findExp q + 1) ≤ (2 : ℚ) ^ e :=
      zpow_le_zpow_right₀ (by norm_num) (by omega)
    linarith
  · have hle : (2 : ℚ) ^ (e + 1) ≤ (2 : ℚ) ^ findExp q :=
      zpow_le_zpow_right₀ (by norm_num) (by omega)
    linarith

/-- The double division `21.0 / 0.7` rounds up to `30.000000000000004`, so
the code's bucket count for 21 entries is 31 — one more than the exact
`ceil(21 / 0.7) = 30`. -/
theorem codeBucketCount_21 : codeBucketCount 21 = 31 := by
  have hcast : ((21 : ℕ) : ℚ) = 21 := by norm_num
  have h21 : rn53 ((21 : ℕ) : ℚ) = ((21 : ℕ) : ℚ) :=
    rn53_natCast (by norm_num) (by norm_num)
  have hq : (21 : ℚ) / f07 = 94575592174780416 / 3152519739159347 := by
    rw [f07, f07sig, div_div_eq_mul_div]
    norm_num
  have hq0 : (0 : ℚ) < (21 : ℚ) / f07 := by
    rw [hq]
    norm_num
  have hfe : findExp ((21 : ℚ) / f07) = 4 := by
    apply findExp_unique hq0
    · rw [hq]
      norm_num
    · rw [hq]
      norm_num
  have hfloor : ⌊(21 : ℚ) / f07 * 2 ^ (48 : ℤ)⌋ = 8444249301319680 := by
    rw [Int.floor_eq_iff]
    constructor
    · rw [hq]
      push_cast
      norm_num
    · rw [hq]
      push_cast
      norm_num
  have hsub : ¬ ((21 : ℚ) / f07 * 2 ^ (48 : ℤ) -
      ((8444249301319680 : ℤ) : ℚ) < 1 / 2) := by
    rw [hq]
    push_cast
    norm_num
  have hsub2 : (1 : ℚ) / 2 < (21 : ℚ) / f07 * 2 ^ (48 : ℤ) -
      ((8444249301319680 : ℤ) : ℚ) := by
    rw [hq]
    push_cast
    norm_num
  have hrnInt : rnInt ((21 : ℚ) / f07 * 2 ^ (48 : ℤ)) = 8444249301319681 := by
    rw [rnInt, hfloor, if_neg hsub, if_pos hsub2]
    norm_num
  have he1 : (52 : ℤ) - 4 = 48 := by norm_num
  have he2 : (4 : ℤ) - 52 = -48 := by norm_num
  have hrn : rn53 ((21 : ℚ) / f07) =
      ((8444249301319681 : ℤ) : ℚ) * 2 ^ (-48 : ℤ) := by
    rw [rn53, if_neg (by rw [hq]; norm_num)]
    rw [rn53pos, hfe, he1, he2, hrnInt]
  have hceil : ⌈((8444249301319681 : ℤ) : ℚ) * 2 ^ (-48 : ℤ)⌉ = 31 := by
    rw [Int.ceil_eq_iff]
    constructor
    · push_cast
      norm_num
    · push_cast
      norm_num
  rw [codeBucketCount, hcast]
  rw [show rn53 (21 : ℚ) = (21 : ℚ) from by rw [← hcast]; exact h21]
  rw [hrn, hceil]
  decide

/-- At `n₀ = 3152519739159348` (one more than the numerator of `0.7_f64`)
the computed bucket count is `2^52 + 1`. -/
theorem codeBucketCount_big :
    codeBucketCount 3152519739159348 = 4503599627370497 := by
  have hcast : ((3152519739159348 : ℕ) : ℚ) = 3152519739159348 := by norm_num
  have hn : rn53 ((3152519739159348 : ℕ) : ℚ) = ((3152519739159348 : ℕ) : ℚ) :=
    rn53_natCast (by norm_num) (by norm_num)
  have hq : (3152519739159348 : ℚ) / f07 =
      14197686722556172899642777796608 / 3152519739159347 := by
    rw [f07, f07sig, div_div_eq_mul_div]
    norm_num
  have hq0 : (0 : ℚ) < (3152519739159348 : ℚ) / f07 := by
    rw [hq]
    norm_num
  have hfe : findExp ((3152519739159348 : ℚ) / f07) = 52 := by
    apply findExp_unique hq0
    · rw [hq]
      norm_num
    · rw [hq]
      norm_num
  have he1 : (52 : ℤ) - 52 = 0 := by norm_num
  have hmul : (3152519739159348 : ℚ) / f07 * 2 ^ (0 : ℤ) =
      (3152519739159348 : ℚ) / f07 := by
    rw [zpow_zero, mul_one]
  have hfloor : ⌊(3152519739159348 : ℚ) / f07⌋ = 4503599627370497 := by
    rw [Int.floor_eq_iff]
    constructor
    · rw [hq]
      push_cast
      norm_num
    · rw [hq]
      push_cast
      norm_num
  have hsub : (3152519739159348 : ℚ) / f07 -
      ((4503599627370497 : ℤ) : ℚ) < 1 / 2 := by
    rw [hq]
    push_cast
    norm_num
  have hrnInt : rnInt ((3152519739159348 : ℚ) / f07) = 4503599627370497 := by
    rw [rnInt, hfloor, if_pos hsub]
  have hrn : rn53 ((3152519739159348 : ℚ) / f07) =
      ((4503599627370497 : ℤ) : ℚ) * 2 ^ (0 : ℤ) := by
    rw [rn53, if_neg (by rw [hq]; norm_num)]
    rw [rn53pos, hfe, he1, hmul, hrnInt]
  have hceil : ⌈((4503599627370497 : ℤ) : ℚ) * 2 ^ (0 : ℤ)⌉ =
      4503599627370497 := by
    rw [zpow_zero, mul_one, Int.ceil_intCast]
  rw [codeBucketCount, hcast]
  rw [show rn53 (3152519739159348 : ℚ) = (3152519739159348 : ℚ) from by
    rw [← hcast]; exact hn]
  rw [hrn, hceil]
  decide

/-- For two entries the code chooses three buckets
(`ceil(2 / 0.7) = 3` both exactly and in `f64`). -/
theorem codeBucketCount_2 : codeBucketCount 2 = 3 := by
  have hcast : ((2 : ℕ) : ℚ) = 2 := by norm_num
  have h2 : rn53 ((2 : ℕ) : ℚ) = ((2 : ℕ) : ℚ) :=
    rn53_natCast (by norm_num) (by norm_num)
  have hq : (2 : ℚ) / f07 = 9007199254740992 / 3152519739159347 := by
    rw [f07, f07sig, div_div_eq_mul_div]
    norm_num
  have hq0 : (0 : ℚ) < (2 : ℚ) / f07 := by
    rw [hq]
    norm_num
  have hfe : findExp ((2 : ℚ) / f07) = 1 := by
    apply findExp_unique hq0
    · rw [hq]
      norm_num
    · rw [hq]
      norm_num
  have hfloor : ⌊(2 : ℚ) / f07 * 2 ^ (51 : ℤ)⌋ = 6433713753386423 := by
    rw [Int.floor_eq_iff]
    constructor
    · rw [hq]
      push_cast
      norm_num
    · rw [hq]
      push_cast
      norm_num
  have hsub : (2 : ℚ) / f07 * 2 ^ (51 : ℤ) -
      ((6433713753386423 : ℤ) : ℚ) < 1 / 2 := by
    rw [hq]
    push_cast
    norm_num
  have hrnInt : rnInt ((2 : ℚ) / f07 * 2 ^ (51 : ℤ)) = 6433713753386423 := by
    rw [rnInt, hfloor, if_pos hsub]
  have he1 : (52 : ℤ) - 1 = 51 := by norm_num
  have he2 : (1 : ℤ) - 52 = -51 := by norm_num
  have hrn : rn53 ((2 : ℚ) / f07) =
      ((6433713753386423 : ℤ) : ℚ) * 2 ^ (-51 : ℤ) := by
    rw [rn53, if_neg (by rw [hq]; norm_num)]
    rw [rn53pos, hfe, he1, he2, hrnInt]
  have hceil : ⌈((6433713753386423 : ℤ) : ℚ) * 2 ^ (-51 : ℤ)⌉ = 3 := by
    rw [Int.ceil_eq_iff]
    constructor
    · push_cast
      norm_num
    · push_cast
      norm_num
  rw [codeBucketCount, hcast]
  rw [show rn53 (2 : ℚ) = (2 : ℚ) from by rw [← hcast]; exact h2]
  rw [hrn, hceil]
  decide

/-! ### `open` failures -/

/-- A wrong or absent magic tag makes the flat `open` fail. -/
theorem bopen_bad_magic {data : List Nat} (h : data.take 8 ≠ BMAGIC) :
    BTreeDatStore.openStore data = none := by
  rw [BTreeDatStore.openStore]
  by_cases hlen : data.length < 64
  · rw [if_pos hlen]
  · rw [if_neg hlen, if_pos h]

/-- A file shorter than the 64-byte header makes the flat `open` fail. -/
theorem bopen_short {data : List Nat} (h : data.length < 64) :
    BTreeDatStore.openStore data = none := by
  rw [BTreeDatStore.openStore, if_pos h]

/-- A wrong or absent magic tag makes the hash `open` fail. -/
theorem hopen_bad_magic {data : List Nat} (h : data.take 8 ≠ HMAGIC) :
    HashDatStore.openStore data = none := by
  rw [HashDatStore.openStore]
  by_cases hlen : data.length < 64
  · rw [if_pos hlen]
  · rw [if_neg hlen, if_pos h]

/-- A declared heap offset inconsistent with the declared bucket count
makes the hash `open` fail. -/
theorem hopen_bad_heapOff {data : List Nat}
    (hlen : ¬ data.length < 64) (hmag : data.take 8 = HMAGIC)
    (hoff : readLE data 16 8 ≠ (64 + readLE data 8 8 * 24) % 2 ^ 64) :
    HashDatStore.openStore data = none := by
  simp only [HashDatStore.openStore, hlen, if_false, hmag]
  rw [if_neg (by simp), if_pos hoff]

/-- A 64-byte file with a valid flat magic but a declared heap offset of
1000 — far past the end of the file. -/
def badBFile : List Nat :=
  BMAGIC ++ le 8 64 ++ le 8 1000 ++ le 8 0 ++ List.replicate 32 0

/-! ### The hash builder under duplicate keys -/

/-- Inserting the same key twice leaves two occupied buckets and two heap
records in the sealed hash store. -/
theorem hash_builder_duplicates (h : List Nat → Nat) (k v1 v2 : List Nat) :
    ∃ st : HBuild, ∃ i1 i2 : Nat,
      buildLoop h (codeBucketCount 2) [(k, v1), (k, v2)]
        ⟨List.replicate (codeBucketCount 2) (0, 0, 0), [],
          64 + codeBucketCount 2 * 24⟩ = some st ∧
      st.blob_heap = recBytes (k, v1) ++ recBytes (k, v2) ∧
      i1 ≠ i2 ∧
      st.buckets[i1]? = some (hashKey h k, 64 + codeBucketCount 2 * 24,
        recLen (k, v1)) ∧
      st.buckets[i2]? = some (hashKey h k,
        64 + codeBucketCount 2 * 24 + recLen (k, v1), recLen (k, v2)) := by
  rw [codeBucketCount_2]
  obtain ⟨st, hloop, hinv⟩ := hashFinish_builds h [(k, v1), (k, v2)]
  have hlen2 : ([(k, v1), (k, v2)] : List (List Nat × List Nat)).length = 2 :=
    rfl
  rw [hlen2, codeBucketCount_2] at hloop hinv
  obtain ⟨hblen, hheap, hcur, ixs, hnodup, hf, hconv⟩ := hinv
  obtain ⟨hlenx, hget⟩ := List.forall₂_iff_get.mp hf
  have hvl : (hValOffs (64 + 3 * 24) [(k, v1), (k, v2)]).length = 2 := rfl
  have hx0 : (0 : Nat) < (hValOffs (64 + 3 * 24)
      [(k, v1), (k, v2)]).length := by omega
  have hx1 : (1 : Nat) < (hValOffs (64 + 3 * 24)
      [(k, v1), (k, v2)]).length := by omega
  have hi0 : (0 : Nat) < ixs.length := by omega
  have hi1 : (1 : Nat) < ixs.length := by omega
  have hR0 := hget 0 hx0 hi0
  have hR1 := hget 1 hx1 hi1
  rw [show (hValOffs (64 + 3 * 24) [(k, v1), (k, v2)]).get ⟨0, hx0⟩ =
      ((k, v1), 64 + 3 * 24) from rfl] at hR0
  rw [show (hValOffs (64 + 3 * 24) [(k, v1), (k, v2)]).get ⟨1, hx1⟩ =
      ((k, v2), 64 + 3 * 24 + recLen (k, v1)) from rfl] at hR1
  obtain ⟨-, hb1, -⟩ := hR0
  obtain ⟨-, hb2, -⟩ := hR1
  rw [show ((k, v1), 64 + 3 * 24).1.1 = k from rfl,
    show ((k, v1), 64 + 3 * 24).2 = 64 + 3 * 24 from rfl,
    show ((k, v1), 64 + 3 * 24).1 = (k, v1) from rfl] at hb1
  rw [show ((k, v2), 64 + 3 * 24 + recLen (k, v1)).1.1 = k from rfl,
    show ((k, v2), 64 + 3 * 24 + recLen (k, v1)).2 =
      64 + 3 * 24 + recLen (k, v1) from rfl,
    show ((k, v2), 64 + 3 * 24 + recLen (k, v1)).1 = (k, v2) from rfl] at hb2
  have hne : ixs.get ⟨0, hi0⟩ ≠ ixs.get ⟨1, hi1⟩ := by
    intro he
    have hinj := (List.Nodup.get_inj_iff hnodup).mp he
    simp at hinj
  exact ⟨st, ixs.get ⟨0, hi0⟩, ixs.get ⟨1, hi1⟩, hloop,
    by rw [hheap]; simp, hne, hb1, hb2⟩

/-- With no entries the code still allocates one bucket. -/
theorem codeBucketCount_0 : codeBucketCount 0 = 1 := by
  rw [codeBucketCount]
  have h0 : rn53 ((0 : ℕ) : ℚ) = 0 := by
    rw [rn53, if_pos (by norm_num)]
  rw [h0]
  have h1 : rn53 (0 / f07) = 0 := by
    rw [zero_div, rn53, if_pos (by norm_num)]
  rw [h1]
  simp

set_option maxRecDepth 20000 in
/-- A concrete duplicate-key build-and-lookup: the probe finds the
first-inserted occurrence. -/
theorem hash_get_first_dup :
    (hashFinish (fun _ => 5) [([1], [2]), ([1], [3])]).bind
      (fun F => (HashDatStore.openStore F).bind
        (fun S => S.get (fun _ => 5) [1])) = some (some [2]) := by
  have hl2 : ([([1], [2]), ([1], [3])] :
      List (List Nat × List Nat)).length = 2 := rfl
  have hbc2 : codeBucketCount ([([1], [2]), ([1], [3])] :
      List (List Nat × List Nat)).length = 3 := by
    rw [hl2]
    exact codeBucketCount_2
  rw [hashFinish]
  simp only [hbc2]
  rfl

/-! ## The claims -/

/-- C1: building a store from (key, value) pairs with unique keys via
create/insert/finish, then opening it, makes `get` return exactly the
original value for every inserted key, and `len` the number of unique
keys — for both the flat sorted-index engine and the hash engine. -/
theorem C1_roundtrip (h : List Nat → Nat)
    (pairs : List (List Nat × List Nat))
    (hnd : (pairs.map Prod.fst).Nodup)
    (hklen : ∀ kv ∈ pairs, kv.1.length < 2 ^ 32)
    (hbsz : (btreeFinish pairs).length < 2 ^ 64)
    (hhsz : 64 + codeBucketCount pairs.length * 24 +
      ((pairs.map recBytes).flatten).length < 2 ^ 64) :
    (∃ s : BTreeDatStore,
      BTreeDatStore.openStore (btreeFinish pairs) = some s ∧
      (∀ k v, (k, v) ∈ pairs → s.get k = some (some v)) ∧
      s.lenStore = pairs.length) ∧
    (∃ F : List Nat, ∃ s : HashDatStore,
      hashFinish h pairs = some F ∧
      HashDatStore.openStore F = some s ∧
      (∀ k v, (k, v) ∈ pairs → s.get h k = some (some v)) ∧
      s.lenStore = pairs.length) := by
  constructor
  · refine ⟨builtBStore pairs, openStore_btreeFinish pairs hbsz, ?_, ?_⟩
    · intro k v hkv
      exact get_builtBStore_some hbsz hklen (alookup_buildBMap_of_mem hnd hkv)
    · show (buildBMap pairs).length = pairs.length
      exact length_buildBMap hnd
  · obtain ⟨st, hinv, hfin, hopen⟩ := hashFinish_open' h pairs hhsz
    refine ⟨(builtHStore h pairs st).fileData, builtHStore h pairs st,
      hfin, hopen, ?_, rfl⟩
    intro k v hkv
    exact built_get_hit hinv hnd hkv hklen

/-- Concrete pairs for the C1 witness. -/
def cpairs : List (List Nat × List Nat) := [([1], [10]), ([2], [20])]

/-- C1 at a concrete two-entry store. -/
theorem C1_roundtrip_witness :
    (∃ s : BTreeDatStore,
      BTreeDatStore.openStore (btreeFinish cpairs) = some s ∧
      (∀ k v, (k, v) ∈ cpairs → s.get k = some (some v)) ∧
      s.lenStore = cpairs.length) ∧
    (∃ F : List Nat, ∃ s : HashDatStore,
      hashFinish (fun _ => 5) cpairs = some F ∧
      HashDatStore.openStore F = some s ∧
      (∀ k v, (k, v) ∈ cpairs → s.get (fun _ => 5) k = some (some v)) ∧
      s.lenStore = cpairs.length) := by
  refine C1_roundtrip (fun _ => 5) cpairs (by decide) (by decide) (by decide)
    ?_
  have hbc : codeBucketCount cpairs.length = 3 := by
    rw [show cpairs.length = 2 from rfl]
    exact codeBucketCount_2
  rw [hbc]
  decide

/-- C2: `get` on a key that was never inserted reports absence (`None`)
rather than a value or an error, for both engines — including on an empty
store. -/
theorem C2_miss (h : List Nat → Nat) (pairs : List (List Nat × List Nat))
    (k : List Nat) (hmiss : k ∉ pairs.map Prod.fst)
    (hklen : ∀ kv ∈ pairs, kv.1.length < 2 ^ 32)
    (hbsz : (btreeFinish pairs).length < 2 ^ 64)
    (hhsz : 64 + codeBucketCount pairs.length * 24 +
      ((pairs.map recBytes).flatten).length < 2 ^ 64) :
    (∃ s : BTreeDatStore,
      BTreeDatStore.openStore (btreeFinish pairs) = some s ∧
      s.get k = some none) ∧
    (∃ F : List Nat, ∃ s : HashDatStore,
      hashFinish h pairs = some F ∧ HashDatStore.openStore F = some s ∧
      s.get h k = some none) := by
  constructor
  · exact ⟨builtBStore pairs, openStore_btreeFinish pairs hbsz,
      get_builtBStore_none hbsz hklen (alookup_buildBMap_of_not_mem hmiss)⟩
  · obtain ⟨st, hinv, hfin, hopen⟩ := hashFinish_open' h pairs hhsz
    exact ⟨(builtHStore h pairs st).fileData, builtHStore h pairs st,
      hfin, hopen, built_get_miss hinv hmiss hklen⟩

/-- C2 on the empty store. -/
theorem C2_miss_witness :
    (∃ s : BTreeDatStore,
      BTreeDatStore.openStore (btreeFinish []) = some s ∧
      s.get [7] = some none) ∧
    (∃ F : List Nat, ∃ s : HashDatStore,
      hashFinish (fun _ => 5) [] = some F ∧
      HashDatStore.openStore F = some s ∧
      s.get (fun _ => 5) [7] = some none) := by
  refine C2_miss (fun _ => 5) [] [7] (by decide) (by decide) (by decide) ?_
  have hbc : codeBucketCount ([] : List (List Nat × List Nat)).length = 1 :=
    codeBucketCount_0
  rw [hbc]
  decide

/-- C3: the flat lookup scans entries sequentially, comparing keys
byte-lexicographically — equal returns the entry's (offset, length),
greater stops with absence, less continues — and on the sorted index a
present key is never reported absent. -/
theorem C3_flat_scan :
    (∀ (data pre rest k key : List Nat) (bo bl bend : Nat),
      data = pre ++ (le 4 k.length ++ k ++ le 8 bo ++ le 8 bl) ++ rest →
      k.length < 2 ^ 32 → bo < 2 ^ 64 → bl < 2 ^ 64 →
      pre.length + (4 + k.length + 16) ≤ bend →
      findLoop data bend key pre.length =
        match lexCmp k key with
        | Ordering.eq => some (some (bo, bl))
        | Ordering.gt => some none
        | Ordering.lt =>
          findLoop data bend key (pre.length + 4 + k.length + 16)) ∧
    (∀ (pairs : List (List Nat × List Nat)) (k v : List Nat),
      (btreeFinish pairs).length < 2 ^ 64 →
      (∀ kv ∈ pairs, kv.1.length < 2 ^ 32) →
      alookup (buildBMap pairs) k = some v →
      ∃ r : Nat × Nat, (builtBStore pairs).find_key k = some (some r)) := by
  constructor
  · intro data pre rest k key bo bl bend hdata hk hbo hbl hbend
    exact findLoop_step key hdata hk hbo hbl hbend
  · intro pairs k v hlen hklen hm
    obtain ⟨bo, hbo⟩ := exists_valOffs_of_mem (alookup_mem hm)
      (64 + btreeIndexSize (buildBMap pairs))
    have hfind := find_key_builtBStore pairs hlen hklen k
    rw [entriesScan_found (SortedM_buildBMap pairs) hbo] at hfind
    exact ⟨_, hfind⟩

/-- C3 at one concrete entry and one concrete store. -/
theorem C3_flat_scan_witness :
    findLoop (le 4 1 ++ [1] ++ le 8 5 ++ le 8 7) 21 [1] 0 =
      some (some (5, 7)) ∧
    ∃ r : Nat × Nat,
      (builtBStore [([1], [9])]).find_key [1] = some (some r) := by
  constructor
  · have hstep := C3_flat_scan.1 (le 4 1 ++ [1] ++ le 8 5 ++ le 8 7)
      [] [] [1] [1] 5 7 21 (by decide) (by decide) (by decide) (by decide)
      (by decide)
    exact hstep
  · exact C3_flat_scan.2 [([1], [9])] [1] [9] (by decide) (by decide)
      (by decide)

/-- C4: the hash lookup's probe loop is bounded by `bucket_count`
iterations: any extra fuel beyond `bucket_count` cannot change the result,
and on a table where every bucket continues the probe (in particular a
saturated table holding only other keys) the lookup reports absence
instead of looping forever. -/
theorem C4_probe_bound (s : HashDatStore) (key : List Nat) (kh : Nat) :
    (∀ fuel idx, idx < s.bucket_count → s.bucket_count ≤ fuel →
      findAux s key kh fuel idx = findAux s key kh s.bucket_count idx) ∧
    ((∀ i < s.bucket_count, stepRes s key kh i = none) →
      ∀ fuel idx, idx < s.bucket_count →
        findAux s key kh fuel idx = some none) := by
  constructor
  · intro fuel idx hidx hfuel
    exact findAux_fuel_stable s key kh fuel idx hidx hfuel
  · intro hsat fuel idx hidx
    exact findAux_miss (fun i hi => Or.inl (hsat i hi)) fuel idx hidx

/-- C4 on a saturated one-bucket table holding a foreign hash. -/
theorem C4_probe_bound_witness :
    findAux ⟨[(3, 0, 0)], [], 1, 1⟩ [] 5 9 0 =
      findAux ⟨[(3, 0, 0)], [], 1, 1⟩ [] 5 1 0 ∧
    findAux ⟨[(3, 0, 0)], [], 1, 1⟩ [] 5 9 0 = some none := by
  constructor
  · exact (C4_probe_bound ⟨[(3, 0, 0)], [], 1, 1⟩ [] 5).1 9 0 (by decide)
      (by decide)
  · exact (C4_probe_bound ⟨[(3, 0, 0)], [], 1, 1⟩ [] 5).2 (by decide) 9 0
      (by decide)

/-- C5: duplicate-key policy. The flat builder keeps only the last value
written for a key (silent last-write-wins); the hash builder stores both
occurrences — two occupied buckets and two heap records — and a lookup
returns the occurrence its probe sequence reaches first (concretely, the
first-inserted one). -/
theorem C5_duplicate_policy :
    (∀ (pairs : List (List Nat × List Nat)) (k : List Nat),
      alookup (buildBMap pairs) k = lastVal pairs k) ∧
    (∀ (h : List Nat → Nat) (k v1 v2 : List Nat),
      ∃ st : HBuild, ∃ i1 i2 : Nat,
        buildLoop h (codeBucketCount 2) [(k, v1), (k, v2)]
          ⟨List.replicate (codeBucketCount 2) (0, 0, 0), [],
            64 + codeBucketCount 2 * 24⟩ = some st ∧
        st.blob_heap = recBytes (k, v1) ++ recBytes (k, v2) ∧
        i1 ≠ i2 ∧
        st.buckets[i1]? = some (hashKey h k, 64 + codeBucketCount 2 * 24,
          recLen (k, v1)) ∧
        st.buckets[i2]? = some (hashKey h k,
          64 + codeBucketCount 2 * 24 + recLen (k, v1), recLen (k, v2))) ∧
    (hashFinish (fun _ => 5) [([1], [2]), ([1], [3])]).bind
      (fun F => (HashDatStore.openStore F).bind
        (fun S => S.get (fun _ => 5) [1])) = some (some [2]) :=
  ⟨alookup_buildBMap, hash_builder_duplicates, hash_get_first_dup⟩

/-- C6 (amended): both engines reject a wrong or absent magic; the hash
engine additionally rejects a heap offset inconsistent with the declared
bucket count, and `open` succeeds on each builder's own output — but the
flat engine never checks its declared offsets against the file size. -/
theorem C6_open_validation :
    (∀ data : List Nat, data.take 8 ≠ BMAGIC →
      BTreeDatStore.openStore data = none) ∧
    (∀ data : List Nat, data.take 8 ≠ HMAGIC →
      HashDatStore.openStore data = none) ∧
    (∀ data : List Nat, ¬ data.length < 64 → data.take 8 = HMAGIC →
      readLE data 16 8 ≠ (64 + readLE data 8 8 * 24) % 2 ^ 64 →
      HashDatStore.openStore data = none) ∧
    (∀ pairs : List (List Nat × List Nat),
      (btreeFinish pairs).length < 2 ^ 64 →
      BTreeDatStore.openStore (btreeFinish pairs) =
        some (builtBStore pairs)) ∧
    (∀ (h : List Nat → Nat) (pairs : List (List Nat × List Nat)),
      64 + codeBucketCount pairs.length * 24 +
        ((pairs.map recBytes).flatten).length < 2 ^ 64 →
      ∃ F : List Nat, ∃ s : HashDatStore,
        hashFinish h pairs = some F ∧
        HashDatStore.openStore F = some s) := by
  refine ⟨fun data hm => bopen_bad_magic hm,
    fun data hm => hopen_bad_magic hm,
    fun data h1 h2 h3 => hopen_bad_heapOff h1 h2 h3,
    fun pairs hlen => openStore_btreeFinish pairs hlen, ?_⟩
  intro h pairs hsz
  obtain ⟨st, hinv, hfin, hopen⟩ := hashFinish_open' h pairs hsz
  exact ⟨(builtHStore h pairs st).fileData, builtHStore h pairs st,
    hfin, hopen⟩

/-- C6 counterexample: the flat `open` accepts a 64-byte file whose
declared heap offset (1000) lies far past the end of the file — the
declared offsets are never checked against the file size. -/
theorem C6_counterexample :
    BTreeDatStore.openStore badBFile = some ⟨badBFile, 64, 1000, 0⟩ ∧
    badBFile.length = 64 := ⟨rfl, rfl⟩

/-- C6 at concrete files: garbage is rejected, a sealed empty store
opens. -/
theorem C6_open_validation_witness :
    BTreeDatStore.openStore (List.replicate 64 0) = none ∧
    HashDatStore.openStore (List.replicate 64 0) = none ∧
    BTreeDatStore.openStore (btreeFinish []) = some (builtBStore []) :=
  ⟨C6_open_validation.1 (List.replicate 64 0) (by decide),
    C6_open_validation.2.1 (List.replicate 64 0) (by decide),
    C6_open_validation.2.2.2.1 [] (by decide)⟩

/-- C7: index and bucket scans read only below the declared heap boundary,
and blob reads past the end of the data are detected and fail (`get_blob`
errors instead of reading out of bounds; success implies the whole range
was in bounds). -/
theorem C7_bounded_reads :
    (∀ (data : List Nat) (bend : Nat) (key : List Nat) (off : Nat),
      findLoop data bend key off = findLoop (data.take bend) bend key off) ∧
    (∀ (data : List Nat) (bend off : Nat),
      keysLoop data bend off = keysLoop (data.take bend) bend off) ∧
    (∀ (s : BTreeDatStore) (off len : Nat), s.mmap.length < off + len →
      s.get_blob off len = none) ∧
    (∀ (s : BTreeDatStore) (off len : Nat) (v : List Nat),
      s.get_blob off len = some v → off + len ≤ s.mmap.length) ∧
    (∀ (s : HashDatStore) (off len : Nat), s.fileData.length < off + len →
      s.get_blob off len = none) ∧
    (∀ (s : HashDatStore) (off len : Nat) (v : List Nat),
      s.get_blob off len = some v → off + len ≤ s.fileData.length) := by
  refine ⟨findLoop_take, keysLoop_take, bget_blob_oob, ?_, hget_blob_oob,
    ?_⟩
  · intro s off len v hv
    exact bget_blob_inbounds hv
  · intro s off len v hv
    exact hget_blob_inbounds hv

/-- C7 at concrete out-of-range reads. -/
theorem C7_bounded_reads_witness :
    (⟨[], 0, 0, 0⟩ : BTreeDatStore).get_blob 0 5 = none ∧
    (⟨[], [], 0, 0⟩ : HashDatStore).get_blob 0 5 = none :=
  ⟨C7_bounded_reads.2.2.1 ⟨[], 0, 0, 0⟩ 0 5 (by decide),
    C7_bounded_reads.2.2.2.2.1 ⟨[], [], 0, 0⟩ 0 5 (by decide)⟩

/-- C8: `keys()` on a store sealed by the flat builder returns the stored
keys in strictly ascending byte-lexicographic order, whatever the
insertion order. -/
theorem C8_sorted_keys (pairs : List (List Nat × List Nat))
    (hklen : ∀ kv ∈ pairs, kv.1.length < 2 ^ 32) :
    ∃ ks : List (List Nat), (builtBStore pairs).keysList = some ks ∧
      ks.Pairwise (fun a b => lexCmp a b = Ordering.lt) :=
  ⟨(buildBMap pairs).map Prod.fst, keysList_builtBStore pairs hklen,
    pairwise_keys_buildBMap pairs⟩

/-- C8 on keys inserted in descending order. -/
theorem C8_sorted_keys_witness :
    ∃ ks : List (List Nat),
      (builtBStore [([2], [0]), ([1], [1])]).keysList = some ks ∧
      ks.Pairwise (fun a b => lexCmp a b = Ordering.lt) :=
  C8_sorted_keys [([2], [0]), ([1], [1])] (by decide)

/-- C9 (amended): the bucket count is the `f64`-computed
`ceil(n / 0.7)` with a minimum of 1 — not always the exact rational
ceiling — and it always admits one bucket per entry; the 0.7 load-factor
bound holds for every entry count below the numerator of `0.7_f64`
(`n < 3152519739159347`), though not beyond. -/
theorem C9_load_factor (n : Nat) (h1 : 1 ≤ n) (h2 : n < f07sig) :
    n ≤ codeBucketCount n ∧
    (n : ℚ) ≤ (7 / 10) * (codeBucketCount n : ℚ) :=
  ⟨bucketCount_ge n, bucketLoad_le h1 h2⟩

/-- C9 counterexample: at 21 entries the code chooses 31 buckets while
the exact `ceil(21 / 0.7)` is 30; at `n₀ = 3152519739159348` the sealed
table's load factor exceeds 0.7. -/
theorem C9_counterexample :
    codeBucketCount 21 = 31 ∧ ⌈(21 : ℚ) / (7 / 10)⌉ = 30 ∧
    codeBucketCount 3152519739159348 = 4503599627370497 ∧
    ¬ ((3152519739159348 : ℚ) ≤
      (7 / 10) * (codeBucketCount 3152519739159348 : ℚ)) := by
  refine ⟨codeBucketCount_21, ?_, codeBucketCount_big, ?_⟩
  · rw [Int.ceil_eq_iff]
    constructor
    · push_cast
      norm_num
    · push_cast
      norm_num
  · rw [codeBucketCount_big]
    push_cast
    norm_num

/-- C9 at 21 entries. -/
theorem C9_load_factor_witness :
    21 ≤ codeBucketCount 21 ∧
    (21 : ℚ) ≤ (7 / 10) * (codeBucketCount 21 : ℚ) :=
  C9_load_factor 21 (by decide) (by decide)

/-- C10: the hash builder's unbounded linear-probing loop in `finish`
terminates for every insertion sequence — the bucket count always covers
the entries, so an empty bucket is always found and `finish` returns a
sealed file. -/
theorem C10_finish_terminates (h : List Nat → Nat)
    (pairs : List (List Nat × List Nat)) :
    (∃ F : List Nat, hashFinish h pairs = some F) ∧
    pairs.length ≤ codeBucketCount pairs.length := by
  refine ⟨?_, bucketCount_ge pairs.length⟩
  obtain ⟨st, hloop, hinv⟩ := hashFinish_builds h pairs
  rw [hashFinish]
  simp only [hloop]
  exact ⟨_, rfl⟩

end Idx
